import Mathlib

/-!
# Verification of the mini_yazi incremental file viewer core

Shallow embedding of `src/src/file_viewer.py` (class `FileViewer`): path
classification, encoding detection, synchronous small-file loading, chunked
background loading with cross-chunk line stitching, the line cache, content
assembly and the hex/ASCII fallback renderer.

Bytes are modelled as `List Nat` (each element < 256 in practice), Python
strings as `List Char`, the Python dict `self.cache` as the ordered list of
writes `(index, value)` performed on it (lookup returns the latest write).
External libraries (`chardet.detect`, the Python codec registry) are
parameters of the embedded operations; the UTF-8 codec itself is embedded
concretely (`utf8Encode` / `utf8Decode`, strict mode as Python's default).
-/

namespace MiniYazi

/-! ## Python `str.splitlines` -/

/-- The line-break characters recognised by Python `str.splitlines`. -/
def isLineBreak (c : Char) : Bool :=
  c = '\n' || c = '\r' || c = '\x0b' || c = '\x0c' ||
  c = '\x1c' || c = '\x1d' || c = '\x1e' || c = '\u0085' ||
  c = '\u2028' || c = '\u2029'

/-- Fuel-driven worker for `slGo`; one unit of fuel per character is
always enough. -/
def slGoAux : Nat → List Char → List Char → List (List Char)
  | _, acc, [] => [acc.reverse]
  | 0, acc, _ :: _ => [acc.reverse]
  | fuel + 1, acc, c :: rest =>
    if isLineBreak c then
      if c = '\r' ∧ rest.head? = some '\n' then
        if rest.tail.isEmpty then [acc.reverse]
        else acc.reverse :: slGoAux fuel [] rest.tail
      else
        if rest.isEmpty then [acc.reverse]
        else acc.reverse :: slGoAux fuel [] rest
    else slGoAux fuel (c :: acc) rest

/-- Worker for `pySplitlines`: `acc` holds the (reversed) characters of the
current line.  A trailing line terminator does not produce a final empty
line, and `"\r\n"` counts as a single terminator. -/
def slGo (acc l : List Char) : List (List Char) := slGoAux l.length acc l

/-- Python `str.splitlines` on a list of characters. -/
def pySplitlines : List Char → List (List Char)
  | [] => []
  | c :: rest => slGo [] (c :: rest)

/-! ## UTF-8 codec (Python strict mode) -/

/-- UTF-8 encoding of one Unicode scalar value (Python `str.encode`). -/
def utf8EncodeChar (c : Char) : List Nat :=
  let n := c.toNat
  if n < 0x80 then [n]
  else if n < 0x800 then [0xC0 + n / 0x40, 0x80 + n % 0x40]
  else if n < 0x10000 then
    [0xE0 + n / 0x1000, 0x80 + n / 0x40 % 0x40, 0x80 + n % 0x40]
  else
    [0xF0 + n / 0x40000, 0x80 + n / 0x1000 % 0x40, 0x80 + n / 0x40 % 0x40,
     0x80 + n % 0x40]

/-- UTF-8 encoding of a string (Python `str.encode()`). -/
def utf8Encode (s : List Char) : List Nat := s.flatMap utf8EncodeChar

/-- One Unicode scalar read strictly from the front of a UTF-8 byte
sequence, together with the remaining bytes; `none` models
`UnicodeDecodeError`.  Rejects truncated sequences, stray continuation
bytes, overlong forms, surrogates and values above `0x10FFFF`, exactly as
Python's strict decoder does. -/
def decodeOne : List Nat → Option (Char × List Nat) := fun l =>
  match l with
  | [] => none
  | b :: rest =>
    if b < 0x80 then some (Char.ofNat b, rest)
    else if b < 0xC2 then none
    else if b < 0xE0 then
      match rest with
      | b2 :: rest2 =>
        if 0x80 ≤ b2 ∧ b2 < 0xC0 then
          some (Char.ofNat ((b - 0xC0) * 0x40 + (b2 - 0x80)), rest2)
        else none
      | [] => none
    else if b < 0xF0 then
      match rest with
      | b2 :: b3 :: rest3 =>
        if (0x80 ≤ b2 ∧ b2 < 0xC0) ∧ (0x80 ≤ b3 ∧ b3 < 0xC0) then
          let v := (b - 0xE0) * 0x1000 + (b2 - 0x80) * 0x40 + (b3 - 0x80)
          if v < 0x800 ∨ (0xD800 ≤ v ∧ v < 0xE000) then none
          else some (Char.ofNat v, rest3)
        else none
      | _ => none
    else if b < 0xF5 then
      match rest with
      | b2 :: b3 :: b4 :: rest4 =>
        if (0x80 ≤ b2 ∧ b2 < 0xC0) ∧ (0x80 ≤ b3 ∧ b3 < 0xC0) ∧
            (0x80 ≤ b4 ∧ b4 < 0xC0) then
          let v := (b - 0xF0) * 0x40000 + (b2 - 0x80) * 0x1000 +
            (b3 - 0x80) * 0x40 + (b4 - 0x80)
          if v < 0x10000 ∨ 0x110000 ≤ v then none
          else some (Char.ofNat v, rest4)
        else none
      | _ => none
    else none

/-- Fuel-driven worker for `utf8Decode`; one unit of fuel per byte is
always enough since every scalar consumes at least one byte. -/
def utf8DecodeGo : Nat → List Nat → Option (List Char)
  | _, [] => some []
  | 0, _ :: _ => none
  | fuel + 1, b :: rest =>
    match decodeOne (b :: rest) with
    | none => none
    | some p => (utf8DecodeGo fuel p.2).map (fun t => p.1 :: t)

/-- Strict UTF-8 decoding of a whole byte string (`bytes.decode("utf-8")`);
`none` models `UnicodeDecodeError`. -/
def utf8Decode (l : List Nat) : Option (List Char) := utf8DecodeGo l.length l

/-! ## Chunking (`mm[offset : offset + chunk_size]`, `offset += chunk_size`) -/

/-- Fuel-driven worker for `chunksOf`. -/
def chunksOfAux (cs : Nat) : Nat → List Nat → List (List Nat)
  | 0, _ => []
  | _, [] => []
  | fuel + 1, b :: l => (b :: l).take cs :: chunksOfAux cs fuel ((b :: l).drop cs)

/-- The successive slices `mm[0:cs]`, `mm[cs:2*cs]`, … read by the
`while offset < len(mm)` loop of `_background_load`. -/
def chunksOf (cs : Nat) (l : List Nat) : List (List Nat) :=
  chunksOfAux cs l.length l

/-! ## The line cache (`self.cache : Dict[int, str]`) -/

/-- The cache dict, modelled as the ordered sequence of writes performed on
it.  A later write to the same key shadows an earlier one. -/
abbrev Cache := List (Nat × List Char)

/-- `dict.get(k)`: the value of the latest write to key `k`, if any. -/
def dictGet (c : Cache) (k : Nat) : Option (List Char) :=
  (c.reverse.find? (fun p => p.1 == k)).map (fun p => p.2)

/-- `max(dict.keys())` (junk value `0` on an empty dict, which the code
guards against). -/
def maxKey (c : Cache) : Nat := c.foldl (fun m p => max m p.1) 0

/-! ## The viewer session state -/

/-- The fields of a `FileViewer` instance relevant to loading and reading. -/
structure Viewer where
  fileType : String
  content : Option (List Nat) := none
  encoding : Option String := none
  cache : Cache := []
  chunkSize : Nat := 4096

/-- Result of `chardet.detect`: a guessed encoding name (possibly absent)
and a confidence score. -/
structure Detected where
  enc : Option String
  conf : ℚ

/-- The `chardet.detect` oracle, a parameter of the embedding. -/
abbrev Detector := List Nat → Detected

/-- The Python codec registry: decoding some bytes under a named encoding,
`none` modelling a decode error. -/
abbrev Codecs := String → List Nat → Option (List Char)

/-- A filesystem node as seen by one viewer session.  `none` payloads model
I/O failures when the node is read. -/
inductive FsNode where
  | missing
  | directory (entries : Option (List (List Char)))
  | regular (bytes : Option (List Nat))

/-- `FileViewer._detect_file_type`. -/
def detectFileType : FsNode → String
  | .missing => "not_exist"
  | .directory _ => "directory"
  | .regular _ => "file"

/-- `FileViewer.__init__`: classify the path, start with everything empty. -/
def mkViewer (fs : FsNode) : Viewer := { fileType := detectFileType fs }

/-- `FileViewer._detect_encoding`: `None` for an absent or empty buffer,
otherwise the chardet guess when its confidence exceeds 0.7, else `None`. -/
def detectEncoding (detect : Detector) (v : Viewer) : Option String :=
  match v.content with
  | none => none
  | some bs =>
    if bs = [] then none
    else
      let r := detect bs
      if r.conf > mkRat 7 10 then r.enc else none

/-! ## Loading -/

/-- String comparison used by `sorted` on the sibling paths of one
directory: lexicographic on code points. -/
def nameLe : List Char → List Char → Bool
  | [], _ => true
  | _ :: _, [] => false
  | a :: as, b :: bs =>
    if a.toNat < b.toNat then true
    else if b.toNat < a.toNat then false
    else nameLe as bs

/-- Insert a name into an already sorted list of names, before the first
entry it compares at most equal to. -/
def insertName (x : List Char) : List (List Char) → List (List Char)
  | [] => [x]
  | y :: ys => if nameLe x y then x :: y :: ys else y :: insertName x ys

/-- Python `sorted(entries)`: a stable sort under `nameLe` (any two stable
sorts of the same list under the same total preorder coincide, so stable
insertion sort models Python's Timsort exactly). -/
def pySorted (l : List (List Char)) : List (List Char) := l.foldr insertName []

/-- `"\n".join(...)`. -/
def joinNL (ls : List (List Char)) : List Char := List.intercalate ['\n'] ls

/-- `FileViewer._load_directory` on a successfully listed directory:
sort the entry names, join with newline, encode, fix the encoding. -/
def loadDirectory (entries : List (List Char)) (v : Viewer) : Viewer :=
  { v with
    content := some (utf8Encode (joinNL (pySorted entries)))
    encoding := some "utf-8" }

/-- The body of `FileViewer.load` up to its `except` clause: either the
updated viewer (returning `True`), or the message of the exception that
escaped. -/
def loadBody (detect : Detector) (codecs : Codecs) (fs : FsNode) (v : Viewer) :
    Except String Viewer :=
  if v.fileType = "not_exist" then .error "file not found"
  else
    match fs with
    | .directory none => .error "directory read failed"
    | .directory (some entries) => .ok (loadDirectory entries v)
    | .missing => .error "file not found"
    | .regular none => .error "io error"
    | .regular (some bytes) =>
      let v1 := { v with content := some bytes }
      let v2 := { v1 with encoding := detectEncoding detect v1 }
      if bytes.length > v2.chunkSize * 2 then
        .ok v2
      else
        match v2.encoding with
        | none => .ok v2
        | some enc =>
          match codecs enc bytes with
          | none => .error "decode error"
          | some text =>
            .ok { v2 with cache := v2.cache ++ (pySplitlines text).enum }

/-- `FileViewer.load`: on success the new state and `True`; on failure the
`except` clause clears `content` and `encoding` and re-raises a single
`FileViewerError`. -/
def load (detect : Detector) (codecs : Codecs) (fs : FsNode) (v : Viewer) :
    Viewer × Except String Bool :=
  match loadBody detect codecs fs v with
  | .ok v2 => (v2, .ok true)
  | .error e => ({ v with content := none, encoding := none }, .error e)

/-! ## Readers -/

/-- `FileViewer.get_line`. -/
def getLine (v : Viewer) (i : Nat) : Option (List Char) := dictGet v.cache i

/-- `max(keys) + 1 if cache else 0`, as a function of the cache contents. -/
def cacheCount (c : Cache) : Nat :=
  if c.isEmpty then 0 else maxKey c + 1

/-- `FileViewer.get_line_count`:
`max(self.cache.keys()) + 1 if self.cache else 0`. -/
def getLineCount (v : Viewer) : Nat := cacheCount v.cache

/-! ## The background loader (`_background_load`) -/

/-- The loop state of `_background_load`: the cache writes performed so far,
`line_num`, the `buffer` list holding the pending tail, and whether an
exception has escaped to the outer `except` (killing the thread). -/
structure BgState where
  cache : Cache
  lineNum : Nat
  buffer : List (List Char)
  dead : Bool

/-- One iteration of the `while offset < len(mm)` loop on a single chunk:
decode (a `UnicodeDecodeError` skips the chunk), split into lines, prepend
the pending tail to the first line, cache all lines but the last, keep the
last as the new pending tail.  An empty `lines` list raises `IndexError`,
which escapes to the outer handler. -/
def bgStep (codecs : Codecs) (enc : String) (s : BgState) (chunk : List Nat) :
    BgState :=
  match codecs enc chunk with
  | none => s
  | some text =>
    match pySplitlines text, s.buffer with
    | [], _ => { s with dead := true }
    | l0 :: rest, [] =>
      let ls := l0 :: rest
      { cache := s.cache ++ List.enumFrom s.lineNum ls.dropLast
        lineNum := s.lineNum + ls.dropLast.length
        buffer := [ls.getLastD []]
        dead := false }
    | l0 :: rest, b :: _ =>
      let ls := (b ++ l0) :: rest
      { cache := s.cache ++ List.enumFrom s.lineNum ls.dropLast
        lineNum := s.lineNum + ls.dropLast.length
        buffer := [ls.getLastD []]
        dead := false }

/-- The chunk loop followed by the final flush `if buffer:
cache[line_num] = buffer[0]`.  A dead state stops processing (the thread
has jumped to its outer `except`), so neither later chunks nor the flush
happen. -/
def bgRun (codecs : Codecs) (enc : String) : BgState → List (List Nat) → BgState
  | s, [] =>
    if s.dead then s
    else
      match s.buffer with
      | [] => s
      | b :: _ => { s with cache := s.cache ++ [(s.lineNum, b)] }
  | s, c :: cs =>
    if s.dead then s else bgRun codecs enc (bgStep codecs enc s c) cs

/-- `_background_load` in full: sample-based encoding choice (fallback
`'utf-8'` when confidence is at most 0.7), then the chunk loop and flush.
Returns the session encoding it stored, the cache writes it performed, and
whether it ran to completion.  When the accepted chardet guess is `None`,
`chunk.decode(None)` raises `TypeError` on the first chunk and the thread
dies having written nothing. -/
def backgroundLoad (detect : Detector) (codecs : Codecs) (cs : Nat)
    (bytes : List Nat) : Option String × Cache × Bool :=
  let sample := bytes.take cs
  let r := detect sample
  let enc := if r.conf > mkRat 7 10 then r.enc else some "utf-8"
  match enc with
  | none => (none, [], bytes.isEmpty)
  | some e =>
    let s := bgRun codecs e ⟨[], 0, [], false⟩ (chunksOf cs bytes)
    (some e, s.cache, !s.dead)

/-- The session state of a large regular file once `load()` has returned
`True` and the background thread has run to completion (`Done`): the
background task owns `encoding` (it overwrites the synchronous guess) and
is the only writer of the cache, which was empty when it started. -/
def afterBackgroundDone (detect : Detector) (codecs : Codecs)
    (bytes : List Nat) : Viewer :=
  let r := backgroundLoad detect codecs 4096 bytes
  { fileType := "file", content := some bytes, encoding := r.1,
    cache := r.2.1, chunkSize := 4096 }

/-! ## Content assembly and the hex fallback -/

/-- One lowercase hexadecimal digit. -/
def hexDigit (n : Nat) : Char :=
  if n < 10 then Char.ofNat (48 + n) else Char.ofNat (87 + n)

/-- Fuel-driven worker for `hexDigits`. -/
def hexDigitsAux : Nat → Nat → List Char
  | 0, _ => []
  | fuel + 1, n =>
    if n = 0 then [] else hexDigitsAux fuel (n / 16) ++ [hexDigit (n % 16)]

/-- The lowercase hexadecimal digits of `n` (empty for 0). -/
def hexDigits (n : Nat) : List Char := hexDigitsAux n n

/-- The Python format `f"{n:0{width}x}"`: lowercase hex, zero-padded on the
left to at least `width` digits, never truncated. -/
def pyHex (width n : Nat) : List Char :=
  let d := if n = 0 then ['0'] else hexDigits n
  List.replicate (width - d.length) '0' ++ d

/-- One byte of the ASCII column: printable bytes `[0x20, 0x7e]` render as
themselves, all others as `'.'`. -/
def asciiChar (b : Nat) : Char :=
  if 32 ≤ b ∧ b ≤ 126 then Char.ofNat b else '.'

/-- One row of `_format_hex_view`:
`f"{i:08x}  {hex_line:<{bpl * 3}}  |{ascii_line}|"`. -/
def hexRow (bytesPerLine off : Nat) (chunk : List Nat) : List Char :=
  let hexLine := List.intercalate [' '] (chunk.map (pyHex 2))
  let hexPadded := hexLine ++ List.replicate (bytesPerLine * 3 - hexLine.length) ' '
  pyHex 8 off ++ [' ', ' '] ++ hexPadded ++ [' ', ' ', '|'] ++
    chunk.map asciiChar ++ ['|']

/-- `FileViewer._format_hex_view`. -/
def formatHexView (content : List Nat) (bytesPerLine : Nat := 16) : List Char :=
  if content = [] then []
  else
    joinNL ((chunksOf bytesPerLine content).enum.map
      (fun p => hexRow bytesPerLine (p.1 * bytesPerLine) p.2))

/-- `FileViewer.get_content`: `None` for an absent or empty buffer; the
joined cache lines when the cache is non-empty; otherwise a direct decode
when an encoding is known and decoding succeeds; otherwise the hex view. -/
def getContent (codecs : Codecs) (v : Viewer) : Option (List Char) :=
  match v.content with
  | none => none
  | some bs =>
    if bs = [] then none
    else if !v.cache.isEmpty then
      some (joinNL ((List.range (getLineCount v)).filterMap (dictGet v.cache)))
    else
      match v.encoding with
      | some enc =>
        match codecs enc bs with
        | some text => some text
        | none => some (formatHexView bs)
      | none => some (formatHexView bs)

/-! ## Proof-support state descriptions -/

/-- The loop invariant of `_background_load`: cache keys written so far are
exactly `0, 1, …, line_num - 1`. -/
def BgKeys (s : BgState) : Prop :=
  s.cache.map Prod.fst = List.range' 0 s.lineNum ∧ s.lineNum = s.cache.length

/-- The loop state of `_background_load` after ingesting exactly the text
`T`: all lines of `T` but the last are cached in order, and the last is the
pending tail. -/
def stitchState (T : List Char) : BgState :=
  ⟨(pySplitlines T).dropLast.enum, (pySplitlines T).dropLast.length,
   [(pySplitlines T).getLastD []], false⟩

/-! ## Specification-side definitions (phrased from the spec's words, to be
compared with the embedded code) -/

/-- Prepend `b` to the first line of a line list (`[b]` when there is
none): the shape of the pending-tail stitch of §4.3. -/
def mergeFirst (b : List Char) : List (List Char) → List (List Char)
  | [] => [b]
  | l :: ls => (b ++ l) :: ls

/-- Decoding the whole file in a single pass under UTF-8 and splitting it
into lines, the reference result the spec compares the chunked loader to. -/
def onePassLines (bytes : List Nat) : Option (List (List Char)) :=
  (utf8Decode bytes).map pySplitlines

/-- Right-padding with spaces to a fixed column width. -/
def padRight (w : Nat) (s : List Char) : List Char :=
  s ++ List.replicate (w - s.length) ' '

/-- One hex-dump row as the spec words it: an 8-hex-digit zero-padded
offset, two spaces, the bytes as two lowercase hex digits each separated by
single spaces and right-padded to 48 characters, two spaces, and a
pipe-delimited ASCII column where bytes in `[0x20, 0x7e]` render as their
character and all others as `'.'`. -/
def specHexRow (off : Nat) (chunk : List Nat) : List Char :=
  pyHex 8 off ++ [' ', ' '] ++
    padRight 48 (List.intercalate [' '] (chunk.map (pyHex 2))) ++
    [' ', ' ', '|'] ++
    chunk.map (fun b => if 0x20 ≤ b ∧ b ≤ 0x7e then Char.ofNat b else '.') ++
    ['|']

/-! ## Concrete oracles and inputs used by witnesses and counterexamples -/

/-- A chardet oracle that confidently reports UTF-8. -/
def detUtf8 : Detector := fun _ => ⟨some "utf-8", mkRat 9 10⟩

/-- A chardet oracle whose confidence never exceeds the 0.7 threshold. -/
def detLow : Detector := fun _ => ⟨some "utf-8", mkRat 1 2⟩

/-- A codec registry that knows (exactly) the UTF-8 codec. -/
def codecsUtf8 : Codecs := fun e bs => if e = "utf-8" then utf8Decode bs else none

/-- A large file (8193 bytes, above the `2 * 4096` threshold) whose first
chunk ends exactly on the newline at byte 4095: 4095 `'A'`s, a newline,
4097 `'B'`s. -/
def c1Bytes : List Nat := List.replicate 4095 65 ++ 10 :: List.replicate 4097 66

/-- The single-pass decoding of `c1Bytes`. -/
def c1Text : List Char := List.replicate 4095 'A' ++ '\n' :: List.replicate 4097 'B'

/-! ## Lemmas: lists -/

theorem getLastD_irrel {α : Type} (l : List α) (h : l ≠ []) (d d' : α) :
    l.getLastD d = l.getLastD d' := by
  cases l with
  | nil => exact absurd rfl h
  | cons a l => rw [List.getLastD_cons, List.getLastD_cons]

theorem dropLast_concat_getLastD {α : Type} (d : α) :
    ∀ (l : List α), l ≠ [] → l.dropLast ++ [l.getLastD d] = l := by
  intro l
  induction l with
  | nil => intro h; exact absurd rfl h
  | cons a l ih =>
    intro _
    cases l with
    | nil => simp
    | cons b l' =>
      have h2 := ih (by simp)
      simp only [List.getLastD_cons] at h2
      simp only [List.dropLast_cons₂, List.getLastD_cons, List.cons_append, h2]

/-! ## Lemmas: `pySplitlines` -/

theorem mergeFirst_ne_nil (b : List Char) (ls : List (List Char)) :
    mergeFirst b ls ≠ [] := by
  cases ls <;> simp [mergeFirst]

theorem mergeFirst_mergeFirst (a b : List Char) (ls : List (List Char)) :
    mergeFirst a (mergeFirst b ls) = mergeFirst (a ++ b) ls := by
  cases ls <;> simp [mergeFirst]

theorem slGoAux_fuel :
    ∀ (f1 f2 : Nat) (acc l : List Char), l.length ≤ f1 → l.length ≤ f2 →
      slGoAux f1 acc l = slGoAux f2 acc l := by
  intro f1
  induction f1 with
  | zero =>
    intro f2 acc l h1 _
    rw [List.length_eq_zero.mp (Nat.le_zero.mp h1)]
    cases f2 <;> rfl
  | succ f1 ih =>
    intro f2 acc l h1 h2
    match l with
    | [] => cases f2 <;> rfl
    | c :: rest =>
      match f2 with
      | 0 => simp at h2
      | f2 + 1 =>
        simp only [List.length_cons] at h1 h2
        show (if isLineBreak c then _ else slGoAux f1 (c :: acc) rest) =
          (if isLineBreak c then _ else slGoAux f2 (c :: acc) rest)
        by_cases hb : isLineBreak c
        · rw [if_pos hb, if_pos hb]
          by_cases hr : c = '\r' ∧ rest.head? = some '\n'
          · rw [if_pos hr, if_pos hr]
            by_cases he : rest.tail.isEmpty
            · rw [if_pos he, if_pos he]
            · rw [if_neg he, if_neg he,
                ih f2 [] rest.tail (by simp only [List.length_tail]; omega)
                  (by simp only [List.length_tail]; omega)]
          · rw [if_neg hr, if_neg hr]
            by_cases he : rest.isEmpty
            · rw [if_pos he, if_pos he]
            · rw [if_neg he, if_neg he,
                ih f2 [] rest (by omega) (by omega)]
        · rw [if_neg hb, if_neg hb, ih f2 (c :: acc) rest (by omega) (by omega)]

theorem slGo_nil (acc : List Char) : slGo acc [] = [acc.reverse] := rfl

theorem slGo_cons (acc : List Char) (c : Char) (rest : List Char) :
    slGo acc (c :: rest) =
      if isLineBreak c then
        if c = '\r' ∧ rest.head? = some '\n' then
          if rest.tail.isEmpty then [acc.reverse]
          else acc.reverse :: slGo [] rest.tail
        else
          if rest.isEmpty then [acc.reverse]
          else acc.reverse :: slGo [] rest
      else slGo (c :: acc) rest := by
  show slGoAux (rest.length + 1) acc (c :: rest) = _
  have h1 : slGoAux rest.length [] rest.tail = slGo [] rest.tail :=
    slGoAux_fuel rest.length rest.tail.length [] rest.tail
      (by simp only [List.length_tail]; omega) le_rfl
  show (if isLineBreak c then
      if c = '\r' ∧ rest.head? = some '\n' then
        if rest.tail.isEmpty then [acc.reverse]
        else acc.reverse :: slGoAux rest.length [] rest.tail
      else
        if rest.isEmpty then [acc.reverse]
        else acc.reverse :: slGoAux rest.length [] rest
      else slGoAux rest.length (c :: acc) rest) = _
  rw [h1]
  rfl

theorem pySplitlines_cons (c : Char) (rest : List Char) :
    pySplitlines (c :: rest) = slGo [] (c :: rest) := rfl

theorem slGo_eq_mergeFirstAux :
    ∀ (n : Nat) (l acc : List Char), l.length ≤ n →
      slGo acc l = mergeFirst acc.reverse (pySplitlines l) := by
  intro n
  induction n with
  | zero =>
    intro l acc h
    rw [List.length_eq_zero.mp (Nat.le_zero.mp h)]
    simp [slGo_nil, pySplitlines, mergeFirst]
  | succ n ih =>
    intro l acc h
    match l with
    | [] => simp [slGo_nil, pySplitlines, mergeFirst]
    | c :: rest =>
      have hlen : rest.length ≤ n := by simp at h; omega
      rw [slGo_cons, pySplitlines_cons, slGo_cons]
      by_cases hb : isLineBreak c
      · simp only [hb, if_true]
        by_cases hr : c = '\r' ∧ rest.head? = some '\n'
        · simp only [if_pos hr]
          by_cases he : rest.tail.isEmpty
          · simp [he, mergeFirst]
          · simp [he, mergeFirst]
        · simp only [if_neg hr]
          by_cases he : rest.isEmpty
          · simp [he, mergeFirst]
          · simp [he, mergeFirst]
      · rw [if_neg (by simp [hb]), if_neg (by simp [hb])]
        rw [ih rest (c :: acc) hlen, ih rest [c] hlen, mergeFirst_mergeFirst]
        simp

theorem slGo_eq_mergeFirst (acc l : List Char) :
    slGo acc l = mergeFirst acc.reverse (pySplitlines l) :=
  slGo_eq_mergeFirstAux l.length l acc le_rfl

theorem slGo_ne_nil (acc l : List Char) : slGo acc l ≠ [] := by
  rw [slGo_eq_mergeFirst]; exact mergeFirst_ne_nil _ _

theorem pySplitlines_ne_nil (l : List Char) (h : l ≠ []) :
    pySplitlines l ≠ [] := by
  cases l with
  | nil => exact absurd rfl h
  | cons c rest => rw [pySplitlines_cons]; exact slGo_ne_nil _ _

theorem slGo_no_break :
    ∀ (l : List Char), (∀ c ∈ l, isLineBreak c = false) →
      ∀ acc, slGo acc l = [acc.reverse ++ l] := by
  intro l
  induction l with
  | nil => intro _ acc; simp [slGo_nil]
  | cons c rest ih =>
    intro hnb acc
    have hc : isLineBreak c = false := hnb c (by simp)
    rw [slGo_cons, if_neg (by simp [hc])]
    rw [ih (fun d hd => hnb d (by simp [hd])) (c :: acc)]
    simp

theorem pySplitlines_no_break (l : List Char) (hne : l ≠ [])
    (hnb : ∀ c ∈ l, isLineBreak c = false) : pySplitlines l = [l] := by
  cases l with
  | nil => exact absurd rfl hne
  | cons c rest =>
    rw [pySplitlines_cons, slGo_no_break _ hnb]
    simp

theorem pySplitlines_appendAux :
    ∀ (n : Nat) (T t : List Char), T.length ≤ n → T ≠ [] →
      isLineBreak (T.getLastD 'a') = false →
      pySplitlines (T ++ t) =
        (pySplitlines T).dropLast ++
          mergeFirst ((pySplitlines T).getLastD []) (pySplitlines t) := by
  intro n
  induction n with
  | zero =>
    intro T t hl hne _
    exact absurd (List.length_eq_zero.mp (Nat.le_zero.mp hl)) hne
  | succ n ih =>
    intro T t hl hne hend
    match T with
    | [] => exact absurd rfl hne
    | [c] =>
      have hc : isLineBreak c = false := by simpa using hend
      have h1 : pySplitlines [c] = [[c]] := by
        rw [pySplitlines_cons, slGo_cons, if_neg (by simp [hc]), slGo_nil]
        rfl
      rw [List.singleton_append, pySplitlines_cons, slGo_cons,
        if_neg (by simp [hc]), slGo_eq_mergeFirst, h1]
      simp [mergeFirst]
    | c :: d :: T'' =>
      have hlen : (d :: T'').length ≤ n := by simp at hl ⊢; omega
      have hend' : isLineBreak ((d :: T'').getLastD 'a') = false := by
        simpa [List.getLastD_cons] using hend
      have hIH := ih (d :: T'') t hlen (by simp) hend'
      obtain ⟨h', tl, hP'⟩ : ∃ h' tl, pySplitlines (d :: T'') = h' :: tl := by
        rcases hq : pySplitlines (d :: T'') with _ | ⟨h', tl⟩
        · exact absurd hq (pySplitlines_ne_nil _ (by simp))
        · exact ⟨h', tl, rfl⟩
      by_cases hb : isLineBreak c
      · by_cases hr2 : c = '\r' ∧ d = '\n'
        · obtain ⟨hc, hd⟩ := hr2
          subst hc; subst hd
          match T'' with
          | [] =>
            exfalso
            rw [List.getLastD_cons, List.getLastD_cons] at hend
            simp [List.getLastD, isLineBreak] at hend
          | e :: T''' =>
            have hlen2 : (e :: T''').length ≤ n := by simp at hl ⊢; omega
            have hend2 : isLineBreak ((e :: T''').getLastD 'a') = false := by
              simpa [List.getLastD_cons] using hend
            have hIH2 := ih (e :: T''') t hlen2 (by simp) hend2
            obtain ⟨h'', tl'', hP''⟩ :
                ∃ h'' tl'', pySplitlines (e :: T''') = h'' :: tl'' := by
              rcases hq : pySplitlines (e :: T''') with _ | ⟨x, y⟩
              · exact absurd hq (pySplitlines_ne_nil _ (by simp))
              · exact ⟨x, y, rfl⟩
            have lhs : pySplitlines (('\r' :: '\n' :: e :: T''') ++ t) =
                [] :: pySplitlines ((e :: T''') ++ t) := by
              rw [List.cons_append, List.cons_append, pySplitlines_cons, slGo_cons,
                if_pos (by simp [isLineBreak]),
                if_pos (by simp), List.tail_cons]
              rw [if_neg (by simp), List.reverse_nil, List.cons_append]
              rfl
            have rhs : pySplitlines ('\r' :: '\n' :: e :: T''') =
                [] :: pySplitlines (e :: T''') := by
              rw [pySplitlines_cons, slGo_cons,
                if_pos (by simp [isLineBreak]),
                if_pos (by simp), List.tail_cons]
              rw [if_neg (by simp), List.reverse_nil]
              rfl
            rw [lhs, hIH2, hP'', rhs, hP'', List.dropLast_cons₂]
            simp [List.getLastD_cons]
        · have lhs : pySplitlines ((c :: d :: T'') ++ t) =
              [] :: pySplitlines ((d :: T'') ++ t) := by
            rw [List.cons_append, List.cons_append, pySplitlines_cons, slGo_cons,
              if_pos (by simp [hb])]
            rw [if_neg (by
              simp only [List.head?_cons]
              rintro ⟨hcr, hdn⟩
              exact hr2 ⟨hcr, by simpa using hdn⟩)]
            rw [if_neg (by simp), List.reverse_nil, ← List.cons_append]
            rfl
          have rhs : pySplitlines (c :: d :: T'') =
              [] :: pySplitlines (d :: T'') := by
            rw [pySplitlines_cons, slGo_cons, if_pos (by simp [hb])]
            rw [if_neg (by
              simp only [List.head?_cons]
              rintro ⟨hcr, hdn⟩
              exact hr2 ⟨hcr, by simpa using hdn⟩)]
            rw [if_neg (by simp), List.reverse_nil]
            rfl
          rw [lhs, hIH, hP', rhs, hP', List.dropLast_cons₂]
          simp [List.getLastD_cons]
      · have lhs : pySplitlines ((c :: d :: T'') ++ t) =
            mergeFirst [c] (pySplitlines ((d :: T'') ++ t)) := by
          rw [List.cons_append, pySplitlines_cons, slGo_cons,
            if_neg (by simp [hb]), slGo_eq_mergeFirst]
          rfl
        have rhs : pySplitlines (c :: d :: T'') =
            mergeFirst [c] (pySplitlines (d :: T'')) := by
          rw [pySplitlines_cons, slGo_cons, if_neg (by simp [hb]),
            slGo_eq_mergeFirst]
          rfl
        rw [lhs, hIH, hP', rhs, hP']
        match tl with
        | [] =>
          rw [show ([h'] : List (List Char)).dropLast = [] from rfl,
            show ([h'] : List (List Char)).getLastD [] = h' from rfl,
            List.nil_append, mergeFirst_mergeFirst,
            show mergeFirst [c] [h'] = [[c] ++ h'] from rfl,
            show ([[c] ++ h'] : List (List Char)).dropLast = [] from rfl,
            show ([[c] ++ h'] : List (List Char)).getLastD [] = [c] ++ h' from rfl,
            List.nil_append]
        | y :: tl' =>
          simp [mergeFirst, List.dropLast_cons₂, List.getLastD_cons, List.cons_append]

theorem pySplitlines_append (T t : List Char) (hne : T ≠ [])
    (hend : isLineBreak (T.getLastD 'a') = false) :
    pySplitlines (T ++ t) =
      (pySplitlines T).dropLast ++
        mergeFirst ((pySplitlines T).getLastD []) (pySplitlines t) :=
  pySplitlines_appendAux T.length T t le_rfl hne hend

/-! ## Lemmas: UTF-8 -/

set_option maxRecDepth 4000 in
theorem decodeOne_length :
    ∀ (l : List Nat) (p : Char × List Nat), decodeOne l = some p →
      p.2.length < l.length := by
  intro l p h
  match l with
  | [] => simp [decodeOne] at h
  | [b] =>
    simp only [decodeOne] at h
    split_ifs at h <;> (try cases h) <;> simp
  | [b, b2] =>
    simp only [decodeOne] at h
    split_ifs at h <;> (try cases h) <;> simp
  | [b, b2, b3] =>
    simp only [decodeOne] at h
    split_ifs at h <;> (try cases h) <;> simp
  | b :: b2 :: b3 :: b4 :: rest =>
    simp only [decodeOne] at h
    split_ifs at h <;> (try cases h) <;> simp <;> omega

theorem utf8DecodeGo_fuel :
    ∀ (f1 f2 : Nat) (l : List Nat), l.length ≤ f1 → l.length ≤ f2 →
      utf8DecodeGo f1 l = utf8DecodeGo f2 l := by
  intro f1
  induction f1 with
  | zero =>
    intro f2 l h1 _
    have hl : l = [] := List.length_eq_zero.mp (Nat.le_zero.mp h1)
    subst hl
    cases f2 <;> rfl
  | succ f1 ih =>
    intro f2 l h1 h2
    match l with
    | [] => cases f2 <;> rfl
    | b :: rest =>
      match f2 with
      | 0 => simp at h2
      | f2 + 1 =>
        simp only [utf8DecodeGo]
        rcases h : decodeOne (b :: rest) with _ | p
        · rfl
        · dsimp only
          have hlt := decodeOne_length _ _ h
          simp only [List.length_cons] at h1 h2 hlt
          rw [ih f2 p.2 (by omega) (by omega)]

theorem utf8Decode_nil : utf8Decode [] = some [] := rfl

theorem utf8Decode_cons (b : Nat) (rest : List Nat) :
    utf8Decode (b :: rest) =
      match decodeOne (b :: rest) with
      | none => none
      | some p => (utf8Decode p.2).map (fun t => p.1 :: t) := by
  show utf8DecodeGo (b :: rest).length (b :: rest) = _
  simp only [List.length_cons, utf8DecodeGo]
  rcases h : decodeOne (b :: rest) with _ | p
  · rfl
  · have hlt := decodeOne_length _ _ h
    simp only [List.length_cons] at hlt
    show (utf8DecodeGo rest.length p.2).map (fun t => p.1 :: t) = _
    rw [utf8DecodeGo_fuel rest.length p.2.length p.2 (by omega) le_rfl]
    rfl

theorem decodeOne_one (x : Nat) (bs : List Nat) (h : x < 0x80) :
    decodeOne (x :: bs) = some (Char.ofNat x, bs) := by
  simp only [decodeOne]
  rw [if_pos h]

theorem decodeOne_two (x y : Nat) (bs : List Nat)
    (h1 : 0xC2 ≤ x) (h2 : x < 0xE0) (h3 : 0x80 ≤ y) (h4 : y < 0xC0) :
    decodeOne (x :: y :: bs) =
      some (Char.ofNat ((x - 0xC0) * 0x40 + (y - 0x80)), bs) := by
  simp only [decodeOne]
  rw [if_neg (by omega), if_neg (by omega), if_pos h2]
  show (if 0x80 ≤ y ∧ y < 0xC0 then
      some (Char.ofNat ((x - 0xC0) * 0x40 + (y - 0x80)), bs) else none) = _
  rw [if_pos ⟨h3, h4⟩]

theorem decodeOne_three (x y z : Nat) (bs : List Nat)
    (h1 : 0xE0 ≤ x) (h2 : x < 0xF0) (h3 : 0x80 ≤ y) (h4 : y < 0xC0)
    (h5 : 0x80 ≤ z) (h6 : z < 0xC0)
    (hv : ¬((x - 0xE0) * 0x1000 + (y - 0x80) * 0x40 + (z - 0x80) < 0x800 ∨
      (0xD800 ≤ (x - 0xE0) * 0x1000 + (y - 0x80) * 0x40 + (z - 0x80) ∧
        (x - 0xE0) * 0x1000 + (y - 0x80) * 0x40 + (z - 0x80) < 0xE000))) :
    decodeOne (x :: y :: z :: bs) =
      some (Char.ofNat ((x - 0xE0) * 0x1000 + (y - 0x80) * 0x40 + (z - 0x80)), bs) := by
  simp only [decodeOne]
  rw [if_neg (by omega), if_neg (by omega), if_neg (by omega), if_pos h2]
  show (if (0x80 ≤ y ∧ y < 0xC0) ∧ (0x80 ≤ z ∧ z < 0xC0) then
      if (x - 0xE0) * 0x1000 + (y - 0x80) * 0x40 + (z - 0x80) < 0x800 ∨
          (0xD800 ≤ (x - 0xE0) * 0x1000 + (y - 0x80) * 0x40 + (z - 0x80) ∧
            (x - 0xE0) * 0x1000 + (y - 0x80) * 0x40 + (z - 0x80) < 0xE000) then none
      else some (Char.ofNat ((x - 0xE0) * 0x1000 + (y - 0x80) * 0x40 + (z - 0x80)), bs)
    else none) = _
  rw [if_pos ⟨⟨h3, h4⟩, h5, h6⟩, if_neg hv]

theorem decodeOne_four (x y z w : Nat) (bs : List Nat)
    (h1 : 0xF0 ≤ x) (h2 : x < 0xF5) (h3 : 0x80 ≤ y) (h4 : y < 0xC0)
    (h5 : 0x80 ≤ z) (h6 : z < 0xC0) (h7 : 0x80 ≤ w) (h8 : w < 0xC0)
    (hv : ¬((x - 0xF0) * 0x40000 + (y - 0x80) * 0x1000 + (z - 0x80) * 0x40 +
        (w - 0x80) < 0x10000 ∨
      0x110000 ≤ (x - 0xF0) * 0x40000 + (y - 0x80) * 0x1000 + (z - 0x80) * 0x40 +
        (w - 0x80))) :
    decodeOne (x :: y :: z :: w :: bs) =
      some (Char.ofNat ((x - 0xF0) * 0x40000 + (y - 0x80) * 0x1000 +
        (z - 0x80) * 0x40 + (w - 0x80)), bs) := by
  simp only [decodeOne]
  rw [if_neg (by omega), if_neg (by omega), if_neg (by omega), if_neg (by omega),
    if_pos h2]
  show (if (0x80 ≤ y ∧ y < 0xC0) ∧ (0x80 ≤ z ∧ z < 0xC0) ∧ (0x80 ≤ w ∧ w < 0xC0) then
      if (x - 0xF0) * 0x40000 + (y - 0x80) * 0x1000 + (z - 0x80) * 0x40 +
          (w - 0x80) < 0x10000 ∨
          0x110000 ≤ (x - 0xF0) * 0x40000 + (y - 0x80) * 0x1000 + (z - 0x80) * 0x40 +
            (w - 0x80) then none
      else some (Char.ofNat ((x - 0xF0) * 0x40000 + (y - 0x80) * 0x1000 +
        (z - 0x80) * 0x40 + (w - 0x80)), bs)
    else none) = _
  rw [if_pos ⟨⟨h3, h4⟩, ⟨h5, h6⟩, h7, h8⟩, if_neg hv]

theorem utf8Decode_one (x : Nat) (bs : List Nat) (h : x < 0x80) :
    utf8Decode (x :: bs) = (utf8Decode bs).map (fun t => Char.ofNat x :: t) := by
  rw [utf8Decode_cons, decodeOne_one _ _ h]

theorem utf8Decode_two (x y : Nat) (bs : List Nat)
    (h1 : 0xC2 ≤ x) (h2 : x < 0xE0) (h3 : 0x80 ≤ y) (h4 : y < 0xC0) :
    utf8Decode (x :: y :: bs) =
      (utf8Decode bs).map
        (fun t => Char.ofNat ((x - 0xC0) * 0x40 + (y - 0x80)) :: t) := by
  rw [utf8Decode_cons, decodeOne_two _ _ _ h1 h2 h3 h4]

theorem utf8Decode_three (x y z : Nat) (bs : List Nat)
    (h1 : 0xE0 ≤ x) (h2 : x < 0xF0) (h3 : 0x80 ≤ y) (h4 : y < 0xC0)
    (h5 : 0x80 ≤ z) (h6 : z < 0xC0)
    (hv : ¬((x - 0xE0) * 0x1000 + (y - 0x80) * 0x40 + (z - 0x80) < 0x800 ∨
      (0xD800 ≤ (x - 0xE0) * 0x1000 + (y - 0x80) * 0x40 + (z - 0x80) ∧
        (x - 0xE0) * 0x1000 + (y - 0x80) * 0x40 + (z - 0x80) < 0xE000))) :
    utf8Decode (x :: y :: z :: bs) =
      (utf8Decode bs).map
        (fun t =>
          Char.ofNat ((x - 0xE0) * 0x1000 + (y - 0x80) * 0x40 + (z - 0x80)) :: t) := by
  rw [utf8Decode_cons, decodeOne_three _ _ _ _ h1 h2 h3 h4 h5 h6 hv]

theorem utf8Decode_four (x y z w : Nat) (bs : List Nat)
    (h1 : 0xF0 ≤ x) (h2 : x < 0xF5) (h3 : 0x80 ≤ y) (h4 : y < 0xC0)
    (h5 : 0x80 ≤ z) (h6 : z < 0xC0) (h7 : 0x80 ≤ w) (h8 : w < 0xC0)
    (hv : ¬((x - 0xF0) * 0x40000 + (y - 0x80) * 0x1000 + (z - 0x80) * 0x40 +
        (w - 0x80) < 0x10000 ∨
      0x110000 ≤ (x - 0xF0) * 0x40000 + (y - 0x80) * 0x1000 + (z - 0x80) * 0x40 +
        (w - 0x80))) :
    utf8Decode (x :: y :: z :: w :: bs) =
      (utf8Decode bs).map
        (fun t =>
          Char.ofNat ((x - 0xF0) * 0x40000 + (y - 0x80) * 0x1000 +
            (z - 0x80) * 0x40 + (w - 0x80)) :: t) := by
  rw [utf8Decode_cons, decodeOne_four _ _ _ _ _ h1 h2 h3 h4 h5 h6 h7 h8 hv]

theorem char_valid_nat (c : Char) :
    c.toNat < 0xD800 ∨ (0xDFFF < c.toNat ∧ c.toNat < 0x110000) := by
  have h := c.valid
  simpa [UInt32.isValidChar, Nat.isValidChar, Char.toNat] using h

theorem utf8Decode_encodeChar (c : Char) (bs : List Nat) :
    utf8Decode (utf8EncodeChar c ++ bs) =
      (utf8Decode bs).map (fun t => c :: t) := by
  have hv := char_valid_nat c
  have hofn : Char.ofNat c.toNat = c := Char.ofNat_toNat c
  by_cases k1 : c.toNat < 0x80
  · rw [show utf8EncodeChar c = [c.toNat] from by
      simp only [utf8EncodeChar]; rw [if_pos k1]]
    rw [List.singleton_append, utf8Decode_one _ _ k1, hofn]
  · by_cases k2 : c.toNat < 0x800
    · rw [show utf8EncodeChar c =
          [0xC0 + c.toNat / 0x40, 0x80 + c.toNat % 0x40] from by
        simp only [utf8EncodeChar]; rw [if_neg k1, if_pos k2]]
      rw [List.cons_append, List.cons_append, List.nil_append,
        utf8Decode_two _ _ _ (by omega) (by omega) (by omega) (by omega)]
      have : (0xC0 + c.toNat / 0x40 - 0xC0) * 0x40 +
          (0x80 + c.toNat % 0x40 - 0x80) = c.toNat := by omega
      rw [this, hofn]
    · by_cases k3 : c.toNat < 0x10000
      · rw [show utf8EncodeChar c =
            [0xE0 + c.toNat / 0x1000, 0x80 + c.toNat / 0x40 % 0x40,
             0x80 + c.toNat % 0x40] from by
          simp only [utf8EncodeChar]; rw [if_neg k1, if_neg k2, if_pos k3]]
        rw [List.cons_append, List.cons_append, List.cons_append,
          List.nil_append,
          utf8Decode_three _ _ _ _ (by omega) (by omega) (by omega) (by omega)
            (by omega) (by omega) (by omega)]
        have : (0xE0 + c.toNat / 0x1000 - 0xE0) * 0x1000 +
            (0x80 + c.toNat / 0x40 % 0x40 - 0x80) * 0x40 +
            (0x80 + c.toNat % 0x40 - 0x80) = c.toNat := by omega
        rw [this, hofn]
      · rw [show utf8EncodeChar c =
            [0xF0 + c.toNat / 0x40000, 0x80 + c.toNat / 0x1000 % 0x40,
             0x80 + c.toNat / 0x40 % 0x40, 0x80 + c.toNat % 0x40] from by
          simp only [utf8EncodeChar]; rw [if_neg k1, if_neg k2, if_neg k3]]
        rw [List.cons_append, List.cons_append, List.cons_append,
          List.cons_append, List.nil_append,
          utf8Decode_four _ _ _ _ _ (by omega) (by omega) (by omega) (by omega)
            (by omega) (by omega) (by omega) (by omega) (by omega)]
        have : (0xF0 + c.toNat / 0x40000 - 0xF0) * 0x40000 +
            (0x80 + c.toNat / 0x1000 % 0x40 - 0x80) * 0x1000 +
            (0x80 + c.toNat / 0x40 % 0x40 - 0x80) * 0x40 +
            (0x80 + c.toNat % 0x40 - 0x80) = c.toNat := by omega
        rw [this, hofn]

theorem utf8Decode_encode (s : List Char) : utf8Decode (utf8Encode s) = some s := by
  induction s with
  | nil => rfl
  | cons c s ih =>
    rw [show utf8Encode (c :: s) = utf8EncodeChar c ++ utf8Encode s from by
      simp [utf8Encode]]
    rw [utf8Decode_encodeChar, ih]
    rfl

set_option maxRecDepth 4000 in
set_option maxHeartbeats 2000000 in
theorem decodeOne_append :
    ∀ (l : List Nat) (p : Char × List Nat) (bs : List Nat), decodeOne l = some p →
      decodeOne (l ++ bs) = some (p.1, p.2 ++ bs) := by
  intro l p bs h
  match l with
  | [] => simp [decodeOne] at h
  | [b] =>
    simp only [decodeOne] at h
    split_ifs at h <;> (try simp at h) <;>
      (cases h; simp only [List.cons_append, List.nil_append];
        simp only [decodeOne];
        split_ifs <;> first | rfl | (exfalso; omega))
  | [b, b2] =>
    simp only [decodeOne] at h
    split_ifs at h <;> (try simp at h) <;>
      (cases h; simp only [List.cons_append, List.nil_append];
        simp only [decodeOne];
        split_ifs <;> first | rfl | (exfalso; omega))
  | [b, b2, b3] =>
    simp only [decodeOne] at h
    split_ifs at h <;> (try simp at h) <;>
      (cases h; simp only [List.cons_append, List.nil_append];
        simp only [decodeOne];
        split_ifs <;> first | rfl | (exfalso; omega))
  | b :: b2 :: b3 :: b4 :: rest =>
    simp only [decodeOne] at h
    split_ifs at h <;> (try simp at h) <;>
      (cases h; simp only [List.cons_append, List.nil_append];
        simp only [decodeOne];
        split_ifs <;> first | rfl | (exfalso; omega))

theorem utf8Decode_appendAux :
    ∀ (n : Nat) (a : List Nat), a.length ≤ n → ∀ (x : List Char),
      utf8Decode a = some x → ∀ (bs : List Nat),
      utf8Decode (a ++ bs) = (utf8Decode bs).map (fun y => x ++ y) := by
  intro n
  induction n with
  | zero =>
    intro a ha x h bs
    rw [List.length_eq_zero.mp (Nat.le_zero.mp ha)] at h ⊢
    rw [utf8Decode_nil] at h
    cases h
    simp
  | succ n ih =>
    intro a ha x h bs
    match a with
    | [] =>
      rw [utf8Decode_nil] at h
      cases h
      simp
    | b :: rest =>
      rw [utf8Decode_cons] at h
      rcases hd : decodeOne (b :: rest) with _ | p
      · rw [hd] at h; simp at h
      · rw [hd] at h; dsimp only at h
        rcases hmap : utf8Decode p.2 with _ | x2
        · rw [hmap] at h; simp at h
        · rw [hmap] at h
          simp only [Option.map_some'] at h
          cases h
          have hlt := decodeOne_length _ _ hd
          simp only [List.length_cons] at ha hlt
          have hda := decodeOne_append _ _ bs hd
          rw [List.cons_append] at hda
          rw [List.cons_append, utf8Decode_cons, hda]
          dsimp only
          rw [ih p.2 (by omega) x2 hmap bs]
          cases utf8Decode bs <;> simp

theorem utf8Decode_append (a : List Nat) (x : List Char)
    (h : utf8Decode a = some x) (bs : List Nat) :
    utf8Decode (a ++ bs) = (utf8Decode bs).map (fun y => x ++ y) :=
  utf8Decode_appendAux a.length a le_rfl x h bs

theorem utf8Decode_cons_ne_nil (b : Nat) (rest : List Nat) (x : List Char)
    (h : utf8Decode (b :: rest) = some x) : x ≠ [] := by
  rw [utf8Decode_cons] at h
  rcases hd : decodeOne (b :: rest) with _ | p
  · rw [hd] at h; simp at h
  · rw [hd] at h; dsimp only at h
    rcases hmap : utf8Decode p.2 with _ | x2
    · rw [hmap] at h; simp at h
    · rw [hmap] at h
      simp only [Option.map_some'] at h
      cases h
      simp

theorem utf8Decode_ascii :
    ∀ (bs : List Nat), (∀ b ∈ bs, b < 0x80) →
      utf8Decode bs = some (bs.map Char.ofNat) := by
  intro bs
  induction bs with
  | nil => intro _; rfl
  | cons b rest ih =>
    intro h
    rw [utf8Decode_one b rest (h b (by simp)),
      ih (fun c hc => h c (by simp [hc]))]
    rfl

/-! ## Lemmas: the cache dict -/

theorem dictGet_cons (p : Nat × List Char) (c : Cache) (k : Nat) :
    dictGet (p :: c) k =
      (dictGet c k).or (if p.1 = k then some p.2 else none) := by
  unfold dictGet
  rw [List.reverse_cons, List.find?_append]
  rcases h : List.find? (fun q => q.1 == k) c.reverse with _ | q
  · by_cases hk : p.1 = k
    · simp [h, List.find?, hk, Option.or]
    · have hbk : (p.1 == k) = false := by simp [hk]
      simp [h, List.find?, hbk, hk, Option.or]
  · simp [h, Option.or]

theorem dictGet_enumFrom (l : List (List Char)) :
    ∀ (nstart i : Nat),
      dictGet (List.enumFrom nstart l) i =
        if nstart ≤ i ∧ i < nstart + l.length then l.get? (i - nstart)
        else none := by
  induction l with
  | nil => intro nstart i; simp [dictGet]
  | cons x l ih =>
    intro nstart i
    rw [List.enumFrom_cons, dictGet_cons, ih (nstart + 1) i]
    by_cases hi : i = nstart
    · subst hi
      rw [if_neg (by omega), if_pos rfl,
        if_pos ⟨le_rfl, by simp only [List.length_cons]; omega⟩]
      simp [Option.or]
    · rw [show (if nstart = i then some x else none) = none from if_neg (by omega)]
      by_cases hir : nstart + 1 ≤ i ∧ i < nstart + 1 + l.length
      · rw [if_pos hir, if_pos (by simp only [List.length_cons]; omega)]
        have hsub : i - nstart = (i - (nstart + 1)) + 1 := by omega
        rw [hsub]
        rcases hg : l.get? (i - (nstart + 1)) with _ | v
        · simp only [hg, Option.or]
          rw [List.get?_cons_succ, hg]
        · simp only [hg, Option.or]
          rw [List.get?_cons_succ, hg]
      · rw [if_neg hir, if_neg (by simp at hir ⊢; omega)]
        simp [Option.or]

theorem dictGet_enum (l : List (List Char)) (i : Nat) :
    dictGet l.enum i = l.get? i := by
  have h := dictGet_enumFrom l 0 i
  rw [show l.enum = List.enumFrom 0 l from rfl, h]
  by_cases hi : i < l.length
  · rw [if_pos (by omega)]
    simp
  · rw [if_neg (by omega), List.get?_eq_none.mpr (by omega)]

theorem le_foldl_max :
    ∀ (c : Cache) (a : Nat), a ≤ c.foldl (fun m p => max m p.1) a := by
  intro c
  induction c with
  | nil => intro a; exact le_rfl
  | cons p c ih =>
    intro a
    calc a ≤ max a p.1 := le_max_left _ _
    _ ≤ _ := ih (max a p.1)

theorem maxKey_append (c1 c2 : Cache) :
    maxKey (c1 ++ c2) = c2.foldl (fun m p => max m p.1) (maxKey c1) :=
  List.foldl_append _ _ _ _

theorem maxKey_le_maxKey_append (c1 c2 : Cache) :
    maxKey c1 ≤ maxKey (c1 ++ c2) := by
  rw [maxKey_append]
  exact le_foldl_max c2 (maxKey c1)

theorem cacheCount_take_le (c : Cache) (i : Nat) :
    cacheCount (c.take i) ≤ cacheCount c := by
  unfold cacheCount
  rcases ht : c.take i with _ | ⟨p, t⟩
  · simp
  · have hc : ¬c.isEmpty := by
      cases c with
      | nil => simp at ht
      | cons q c' => simp
    rw [if_neg (by simp [ht]), if_neg (by simpa using hc)]
    have := maxKey_le_maxKey_append (c.take i) (c.drop i)
    rw [List.take_append_drop] at this
    rw [← ht]
    omega

theorem foldl_max_range' :
    ∀ (n a m : Nat), 0 < n →
      (List.range' a n).foldl max m = max m (a + n - 1) := by
  intro n
  induction n with
  | zero => intro a m h; omega
  | succ n ih =>
    intro a m _
    rw [List.range'_succ, List.foldl_cons]
    rcases Nat.eq_zero_or_pos n with hn | hn
    · subst hn; simp
    · rw [ih (a + 1) (max m a) hn]
      omega

theorem cacheCount_keys (c : Cache) (n : Nat)
    (h : c.map Prod.fst = List.range' 0 n) : cacheCount c = n := by
  unfold cacheCount
  cases n with
  | zero =>
    have : c = [] := by
      cases c with
      | nil => rfl
      | cons p t => simp [List.range'] at h
    simp [this]
  | succ n =>
    have hne : ¬c.isEmpty := by
      cases c with
      | nil => simp [List.range'] at h
      | cons p t => simp
    rw [if_neg (by simpa using hne)]
    have hm : maxKey c = (c.map Prod.fst).foldl max 0 := by
      unfold maxKey
      rw [List.foldl_map]
    rw [hm, h, foldl_max_range' (n + 1) 0 0 (by omega)]
    omega

/-! ## Lemmas: chunking -/

theorem chunksOfAux_fuel (cs : Nat) (hcs : 0 < cs) :
    ∀ (f1 f2 : Nat) (l : List Nat), l.length ≤ f1 → l.length ≤ f2 →
      chunksOfAux cs f1 l = chunksOfAux cs f2 l := by
  intro f1
  induction f1 with
  | zero =>
    intro f2 l h1 _
    rw [List.length_eq_zero.mp (Nat.le_zero.mp h1)]
    cases f2 <;> rfl
  | succ f1 ih =>
    intro f2 l h1 h2
    match l with
    | [] => cases f2 <;> rfl
    | b :: t =>
      match f2 with
      | 0 => simp at h2
      | f2 + 1 =>
        show (b :: t).take cs :: chunksOfAux cs f1 ((b :: t).drop cs) =
          (b :: t).take cs :: chunksOfAux cs f2 ((b :: t).drop cs)
        rw [ih f2 ((b :: t).drop cs)
          (by simp [List.length_drop] at h1 ⊢; omega)
          (by simp [List.length_drop] at h2 ⊢; omega)]

theorem chunksOf_cons (cs : Nat) (hcs : 0 < cs) (l : List Nat) (h : l ≠ []) :
    chunksOf cs l = l.take cs :: chunksOf cs (l.drop cs) := by
  match l with
  | b :: t =>
    show chunksOfAux cs (t.length + 1) (b :: t) = _
    rw [show chunksOfAux cs (t.length + 1) (b :: t) =
      (b :: t).take cs :: chunksOfAux cs t.length ((b :: t).drop cs) from rfl]
    unfold chunksOf
    rw [chunksOfAux_fuel cs hcs t.length ((b :: t).drop cs).length ((b :: t).drop cs)
      (by simp [List.length_drop]; omega) le_rfl]

theorem chunksOf_flattenAux (cs : Nat) (hcs : 0 < cs) :
    ∀ (n : Nat) (l : List Nat), l.length ≤ n → (chunksOf cs l).flatten = l := by
  intro n
  induction n with
  | zero =>
    intro l h1
    rw [List.length_eq_zero.mp (Nat.le_zero.mp h1)]
    rfl
  | succ n ih =>
    intro l h1
    rcases l with _ | ⟨b, t⟩
    · rfl
    · rw [chunksOf_cons cs hcs _ (by simp), List.flatten_cons,
        ih ((b :: t).drop cs) (by simp [List.length_drop] at h1 ⊢; omega),
        List.take_append_drop]

theorem chunksOf_flatten (cs : Nat) (hcs : 0 < cs) (l : List Nat) :
    (chunksOf cs l).flatten = l :=
  chunksOf_flattenAux cs hcs l.length l le_rfl

theorem chunksOf_memAux (cs : Nat) (hcs : 0 < cs) :
    ∀ (n : Nat) (l : List Nat), l.length ≤ n → ∀ c ∈ chunksOf cs l,
      c ≠ [] ∧ c.length ≤ cs ∧ ∀ b ∈ c, b ∈ l := by
  intro n
  induction n with
  | zero =>
    intro l h1 c hc
    obtain rfl := List.length_eq_zero.mp (Nat.le_zero.mp h1)
    simp [chunksOf, chunksOfAux] at hc
  | succ n ih =>
    intro l h1 c hc
    rcases l with _ | ⟨b, t⟩
    · simp [chunksOf, chunksOfAux] at hc
    · rw [chunksOf_cons cs hcs _ (by simp)] at hc
      rcases List.mem_cons.mp hc with hc | hc
      · subst hc
        refine ⟨by simp [List.take_eq_nil_iff]; omega, by simp, ?_⟩
        intro x hx
        exact List.take_subset _ _ hx
      · obtain ⟨hne, hlen, hmem⟩ :=
          ih ((b :: t).drop cs) (by simp [List.length_drop] at h1 ⊢; omega) c hc
        exact ⟨hne, hlen, fun x hx => List.drop_subset _ _ (hmem x hx)⟩

theorem chunksOf_mem (cs : Nat) (hcs : 0 < cs) (l : List Nat) (c : List Nat)
    (hc : c ∈ chunksOf cs l) : c ≠ [] ∧ c.length ≤ cs ∧ ∀ b ∈ c, b ∈ l :=
  chunksOf_memAux cs hcs l.length l le_rfl c hc

theorem chunksOf_offset_ltAux (cs : Nat) (hcs : 0 < cs) :
    ∀ (n : Nat) (l : List Nat), l.length ≤ n → ∀ k,
      k < (chunksOf cs l).length → cs * k < l.length := by
  intro n
  induction n with
  | zero =>
    intro l h1 k hk
    obtain rfl := List.length_eq_zero.mp (Nat.le_zero.mp h1)
    simp [chunksOf, chunksOfAux] at hk
  | succ n ih =>
    intro l h1 k hk
    rcases l with _ | ⟨b, t⟩
    · simp [chunksOf, chunksOfAux] at hk
    · rw [chunksOf_cons cs hcs _ (by simp)] at hk
      cases k with
      | zero => simp
      | succ k =>
        simp only [List.length_cons] at hk
        have hdrop := ih ((b :: t).drop cs)
          (by simp [List.length_drop] at h1 ⊢; omega) k (by omega)
        simp only [List.length_drop, List.length_cons] at hdrop
        simp only [List.length_cons]
        have : cs * (k + 1) = cs * k + cs := by ring
        omega

theorem chunksOf_offset_lt (cs : Nat) (hcs : 0 < cs) (l : List Nat) (k : Nat)
    (hk : k < (chunksOf cs l).length) : cs * k < l.length :=
  chunksOf_offset_ltAux cs hcs l.length l le_rfl k hk

/-! ## Lemmas: hex formatting -/

theorem hexDigitsAux_fuel :
    ∀ (f1 f2 n : Nat), n ≤ f1 → n ≤ f2 → hexDigitsAux f1 n = hexDigitsAux f2 n := by
  intro f1
  induction f1 with
  | zero =>
    intro f2 n h1 _
    obtain rfl := Nat.le_zero.mp h1
    cases f2 with
    | zero => rfl
    | succ f2 => rw [show hexDigitsAux (f2 + 1) 0 = [] from rfl]; rfl
  | succ f1 ih =>
    intro f2 n h1 h2
    by_cases hn : n = 0
    · subst hn
      cases f2 with
      | zero => rfl
      | succ f2 => rfl
    · match f2 with
      | 0 => omega
      | f2 + 1 =>
        show (if n = 0 then [] else hexDigitsAux f1 (n / 16) ++ [hexDigit (n % 16)]) =
          (if n = 0 then [] else hexDigitsAux f2 (n / 16) ++ [hexDigit (n % 16)])
        have hdiv : n / 16 < n :=
          @Nat.div_lt_self n 16 (Nat.pos_of_ne_zero hn) (by norm_num)
        rw [if_neg hn, if_neg hn,
          ih f2 (n / 16) (by omega) (by omega)]

theorem hexDigits_eq (n : Nat) :
    hexDigits n =
      if n = 0 then [] else hexDigits (n / 16) ++ [hexDigit (n % 16)] := by
  by_cases hn : n = 0
  · subst hn; rfl
  · rw [if_neg hn]
    match n, hn with
    | m + 1, _ =>
      show (if m + 1 = 0 then []
        else hexDigitsAux m ((m + 1) / 16) ++ [hexDigit ((m + 1) % 16)]) = _
      rw [if_neg (show ¬(m + 1 = 0) by omega)]
      have hdiv : (m + 1) / 16 < m + 1 :=
        @Nat.div_lt_self (m + 1) 16 (by omega) (by norm_num)
      rw [hexDigitsAux_fuel m ((m + 1) / 16) ((m + 1) / 16) (by omega) le_rfl]
      rfl

theorem hexDigits_length_le :
    ∀ (k n : Nat), n < 16 ^ k → (hexDigits n).length ≤ k := by
  intro k
  induction k with
  | zero =>
    intro n h
    have : n = 0 := by simpa using h
    subst this
    simp [hexDigits, hexDigitsAux]
  | succ k ih =>
    intro n h
    by_cases hn : n = 0
    · subst hn
      simp [hexDigits, hexDigitsAux]
    · rw [hexDigits_eq, if_neg hn]
      have hd : n / 16 < 16 ^ k := by
        apply Nat.div_lt_of_lt_mul
        rw [pow_succ] at h
        omega
      have := ih (n / 16) hd
      simp only [List.length_append, List.length_cons, List.length_nil]
      omega

theorem pyHex_length (w n : Nat) (h : n < 16 ^ w) (hw : 0 < w) :
    (pyHex w n).length = w := by
  unfold pyHex
  by_cases hn : n = 0
  · rw [if_pos hn]
    simp
    omega
  · rw [if_neg hn]
    have := hexDigits_length_le w n h
    simp only [List.length_append, List.length_replicate]
    omega

theorem intercalate_pairs_length :
    ∀ (xs : List (List Char)), (∀ x ∈ xs, x.length = 2) →
      (List.intercalate [' '] xs).length = 3 * xs.length - 1 := by
  intro xs
  induction xs with
  | nil => intro _; rfl
  | cons x rest ih =>
    intro h
    cases rest with
    | nil =>
      rw [show List.intercalate [' '] [x] = x from by simp [List.intercalate]]
      have := h x (by simp)
      simp [this]
    | cons y rest' =>
      rw [show List.intercalate [' '] (x :: y :: rest') =
          x ++ ' ' :: List.intercalate [' '] (y :: rest') from by
        simp [List.intercalate, List.intersperse]]
      have hx := h x (by simp)
      have hr := ih (fun z hz => h z (by simp [hz]))
      simp only [List.length_append, List.length_cons, hx, hr]
      omega

theorem padRight_length (w : Nat) (s : List Char) (h : s.length ≤ w) :
    (padRight w s).length = w := by
  unfold padRight
  simp only [List.length_append, List.length_replicate]
  omega

theorem hexRow_eq_spec (off : Nat) (chunk : List Nat) :
    hexRow 16 off chunk = specHexRow off chunk := rfl

/-! ## The synchronous load, characterized -/

/-- What `load()` does to a regular file at most `2 * 4096` bytes long:
detect an encoding over the whole buffer, then (when one was accepted)
decode and split into cached lines, failing the load on a decode error. -/
theorem load_small (detect : Detector) (codecs : Codecs) (bytes : List Nat)
    (hsize : ¬ bytes.length > 8192) :
    load detect codecs (FsNode.regular (some bytes))
      (mkViewer (FsNode.regular (some bytes))) =
    (match detectEncoding detect
        { fileType := "file", content := some bytes } with
    | none =>
      ({ fileType := "file", content := some bytes, encoding := none }, .ok true)
    | some enc =>
      match codecs enc bytes with
      | none => ({ fileType := "file" }, .error "decode error")
      | some text =>
        ({ fileType := "file", content := some bytes, encoding := some enc,
           cache := (pySplitlines text).enum }, .ok true)) := by
  unfold load loadBody
  rw [if_neg (show (mkViewer (FsNode.regular (some bytes))).fileType ≠ "not_exist" by
    simp [mkViewer, detectFileType])]
  dsimp only [mkViewer, detectFileType]
  rw [if_neg (show ¬ bytes.length > 4096 * 2 from hsize)]
  rcases henc : detectEncoding detect
      { fileType := "file", content := some bytes } with _ | enc
  · rfl
  · rcases hc : codecs enc bytes with _ | text
    · dsimp only
      rw [hc]
    · dsimp only
      rw [hc]
      rfl

/-! # Claim theorems -/

/-- C10: for a zero-byte regular file, `load()` succeeds (returns `True`)
without raising, `get_line_count()` returns `0`, and `get_content()`
returns `None` rather than an empty string or a hex dump. -/
theorem c10_empty_file (detect : Detector) (codecs : Codecs) :
    (load detect codecs (FsNode.regular (some []))
      (mkViewer (FsNode.regular (some [])))).2 = .ok true ∧
    getLineCount (load detect codecs (FsNode.regular (some []))
      (mkViewer (FsNode.regular (some [])))).1 = 0 ∧
    getContent codecs (load detect codecs (FsNode.regular (some []))
      (mkViewer (FsNode.regular (some [])))).1 = none := by
  refine ⟨rfl, rfl, rfl⟩

/-- C9: when classification fails (missing path) or the synchronous load
fails, `load()` raises a single descriptive session error and resets the
partial state: both the raw buffer and the detected encoding are cleared. -/
theorem c9_load_failure_resets (detect : Detector) (codecs : Codecs)
    (fs : FsNode) (e : String) :
    (fs = FsNode.missing →
      ∃ err, (load detect codecs fs (mkViewer fs)).2 = .error err) ∧
    ((load detect codecs fs (mkViewer fs)).2 = .error e →
      (load detect codecs fs (mkViewer fs)).1.content = none ∧
      (load detect codecs fs (mkViewer fs)).1.encoding = none) := by
  constructor
  · rintro rfl
    exact ⟨"file not found", rfl⟩
  · intro he
    unfold load at he ⊢
    rcases hb : loadBody detect codecs fs (mkViewer fs) with err | v2
    · exact ⟨rfl, rfl⟩
    · rw [hb] at he
      dsimp only at he
      exact absurd he (by simp)

/-- Witness for C9 at the concrete missing path. -/
theorem c9_load_failure_resets_witness :
    (load detLow codecsUtf8 FsNode.missing (mkViewer FsNode.missing)).1.content
        = none ∧
    (load detLow codecsUtf8 FsNode.missing (mkViewer FsNode.missing)).1.encoding
        = none :=
  (c9_load_failure_resets detLow codecsUtf8 FsNode.missing "file not found").2 rfl

/-- C2 counterexample: for the small regular file `[65, 66]` and a detector
reporting confidence 1/2 (at most 0.7), `load()` succeeds yet the session
encoding is left unset (`None`), not the claimed UTF-8 fallback. -/
theorem c2_counterexample :
    (load detLow codecsUtf8 (FsNode.regular (some [65, 66]))
      (mkViewer (FsNode.regular (some [65, 66])))).2 = .ok true ∧
    (load detLow codecsUtf8 (FsNode.regular (some [65, 66]))
      (mkViewer (FsNode.regular (some [65, 66])))).1.encoding = none := by
  refine ⟨rfl, rfl⟩

/-- C2 amended: the detected encoding is accepted iff confidence exceeds
0.7 at both detection sites, but the fallback differs: the background
loader stores the fixed default `'utf-8'`, while the synchronous
`_detect_encoding` stores `None`, so `load()` can succeed on a small
regular file with the session encoding left unset. -/
theorem c2_amended (detect : Detector) (codecs : Codecs) (bytes : List Nat)
    (cs : Nat) :
    ((backgroundLoad detect codecs cs bytes).1 =
      if (detect (bytes.take cs)).conf > mkRat 7 10 then (detect (bytes.take cs)).enc
      else some "utf-8") ∧
    (bytes ≠ [] → bytes.length ≤ 8192 → (detect bytes).conf ≤ mkRat 7 10 →
      (load detect codecs (FsNode.regular (some bytes))
        (mkViewer (FsNode.regular (some bytes)))).2 = .ok true ∧
      (load detect codecs (FsNode.regular (some bytes))
        (mkViewer (FsNode.regular (some bytes)))).1.encoding = none) := by
  constructor
  · dsimp only [backgroundLoad]
    rcases h : (if (detect (bytes.take cs)).conf > mkRat 7 10
        then (detect (bytes.take cs)).enc else some "utf-8") with _ | e
    · rfl
    · rfl
  · intro hne hsize hconf
    have henc : detectEncoding detect
        { fileType := "file", content := some bytes } = none := by
      unfold detectEncoding
      dsimp only
      rw [if_neg hne, if_neg (not_lt.mpr hconf)]
    rw [load_small detect codecs bytes (by omega), henc]
    exact ⟨rfl, rfl⟩

/-- Witness for C2 amended at the concrete input `[65, 66]` with the
low-confidence detector. -/
theorem c2_amended_witness :
    ([65, 66] ≠ ([] : List Nat)) ∧ ([65, 66] : List Nat).length ≤ 8192 ∧
    (detLow [65, 66]).conf ≤ mkRat 7 10 ∧
    ((load detLow codecsUtf8 (FsNode.regular (some [65, 66]))
        (mkViewer (FsNode.regular (some [65, 66])))).2 = .ok true ∧
      (load detLow codecsUtf8 (FsNode.regular (some [65, 66]))
        (mkViewer (FsNode.regular (some [65, 66])))).1.encoding = none) :=
  ⟨by decide, by decide, by decide,
    (c2_amended detLow codecsUtf8 [65, 66] 4096).2 (by decide) (by decide)
      (by decide)⟩

/-- C7: with `bytes_per_line = 16`, every hex-view row is the 8-hex-digit
zero-padded lowercase offset, two spaces, the row's bytes as two lowercase
hex digits each separated by single spaces and right-padded to exactly 48
characters, two spaces, and the pipe-delimited ASCII column rendering bytes
in `[0x20, 0x7e]` as their character and all others as `'.'`; concretely,
`[0x41, 0x00, 0xFF]` yields offset `00000000`, hex column `41 00 ff` padded
to 48 characters, and ASCII column `A..`. -/
theorem c7_hex_view_format :
    (∀ (bs : List Nat), bs ≠ [] → bs.length ≤ 2 ^ 32 → (∀ b ∈ bs, b < 256) →
      formatHexView bs =
        joinNL ((chunksOf 16 bs).enum.map (fun p => specHexRow (16 * p.1) p.2)) ∧
      ∀ p ∈ (chunksOf 16 bs).enum,
        (pyHex 8 (16 * p.1)).length = 8 ∧
        (padRight 48 (List.intercalate [' '] (p.2.map (pyHex 2)))).length = 48) ∧
    formatHexView [0x41, 0x00, 0xFF] =
      "00000000  41 00 ff".toList ++ List.replicate 40 ' ' ++
        "  |A..|".toList := by
  constructor
  · intro bs hne hlen hbyte
    constructor
    · unfold formatHexView
      rw [if_neg hne]
      unfold joinNL
      congr 1
      apply List.map_congr_left
      intro p _
      rw [Nat.mul_comm p.1 16, hexRow_eq_spec]
    · intro p hp
      have hp2 : p.2 ∈ chunksOf 16 bs := List.snd_mem_of_mem_enum hp
      obtain ⟨hcne, hclen, hcsub⟩ := chunksOf_mem 16 (by omega) bs p.2 hp2
      have hidx : p.1 < (chunksOf 16 bs).length := by
        rcases p with ⟨i, x⟩
        have := List.mem_enumFrom hp
        simpa using this.2.1
      have hoff := chunksOf_offset_lt 16 (by omega) bs p.1 hidx
      constructor
      · apply pyHex_length
        · have h16 : (16 : Nat) ^ 8 = 2 ^ 32 := by norm_num
          omega
        · omega
      · apply padRight_length
        rw [intercalate_pairs_length]
        · simp only [List.length_map]
          omega
        · intro x hx
          obtain ⟨b, hb, rfl⟩ := List.mem_map.mp hx
          have hb256 := hbyte b (hcsub b hb)
          exact pyHex_length 2 b (by norm_num; omega) (by omega)
  · decide

/-- Witness for C7 at the concrete 3-byte input. -/
theorem c7_hex_view_format_witness :
    ([0x41, 0x00, 0xFF] ≠ ([] : List Nat)) ∧
    ([0x41, 0x00, 0xFF] : List Nat).length ≤ 2 ^ 32 ∧
    (∀ b ∈ ([0x41, 0x00, 0xFF] : List Nat), b < 256) ∧
    formatHexView [0x41, 0x00, 0xFF] =
      joinNL ((chunksOf 16 [0x41, 0x00, 0xFF]).enum.map
        (fun p => specHexRow (16 * p.1) p.2)) :=
  ⟨by decide, by decide, by decide,
    (c7_hex_view_format.1 [0x41, 0x00, 0xFF] (by decide) (by decide)
      (by decide)).1⟩

/-! ## Lemmas: name sorting -/

theorem nameLe_total : ∀ (a b : List Char), nameLe a b = true ∨ nameLe b a = true := by
  intro a
  induction a with
  | nil => intro b; left; rfl
  | cons x as ih =>
    intro b
    cases b with
    | nil => right; rfl
    | cons y bs =>
      by_cases h1 : x.toNat < y.toNat
      · left; simp [nameLe, h1]
      · by_cases h2 : y.toNat < x.toNat
        · right; simp [nameLe, h2]
        · rcases ih bs with h | h
          · left; simp [nameLe, h1, h2, h]
          · right; simp [nameLe, h1, h2, h]

theorem nameLe_trans :
    ∀ (a b c : List Char), nameLe a b = true → nameLe b c = true →
      nameLe a c = true := by
  intro a
  induction a with
  | nil => intro b c _ _; rfl
  | cons x as ih =>
    intro b c hab hbc
    cases b with
    | nil => simp [nameLe] at hab
    | cons y bs =>
      cases c with
      | nil => simp [nameLe] at hbc
      | cons z cs =>
        simp only [nameLe] at hab hbc ⊢
        split_ifs at hab hbc ⊢ <;>
          first
          | rfl
          | omega
          | simp at hab
          | simp at hbc
          | exact ih bs cs hab hbc

theorem insertName_perm (x : List Char) :
    ∀ (l : List (List Char)), (insertName x l).Perm (x :: l) := by
  intro l
  induction l with
  | nil => exact List.Perm.refl _
  | cons y ys ih =>
    by_cases h : nameLe x y
    · rw [show insertName x (y :: ys) = x :: y :: ys from by
        simp [insertName, h]]
    · rw [show insertName x (y :: ys) = y :: insertName x ys from by
        simp [insertName, h]]
      exact (ih.cons y).trans (List.Perm.swap x y ys)

theorem pySorted_perm : ∀ (l : List (List Char)), (pySorted l).Perm l := by
  intro l
  induction l with
  | nil => exact List.Perm.refl _
  | cons x ls ih =>
    have : pySorted (x :: ls) = insertName x (pySorted ls) := rfl
    rw [this]
    exact (insertName_perm x (pySorted ls)).trans (ih.cons x)

theorem insertName_pairwise (x : List Char) :
    ∀ (l : List (List Char)),
      List.Pairwise (fun a b => nameLe a b = true) l →
      List.Pairwise (fun a b => nameLe a b = true) (insertName x l) := by
  intro l
  induction l with
  | nil => intro _; simp [insertName]
  | cons y ys ih =>
    intro h
    by_cases hxy : nameLe x y
    · rw [show insertName x (y :: ys) = x :: y :: ys from by
        simp [insertName, hxy]]
      refine List.Pairwise.cons ?_ h
      intro z hz
      rcases List.mem_cons.mp hz with rfl | hz
      · exact hxy
      · exact nameLe_trans x y z hxy (List.rel_of_pairwise_cons h hz)
    · rw [show insertName x (y :: ys) = y :: insertName x ys from by
        simp [insertName, hxy]]
      refine List.Pairwise.cons ?_ (ih (List.Pairwise.of_cons h))
      intro z hz
      rcases List.mem_cons.mp ((insertName_perm x ys).mem_iff.mp hz) with rfl | hz
      · rcases nameLe_total z y with hx | hx
        · exact absurd hx hxy
        · exact hx
      · exact List.rel_of_pairwise_cons h hz

theorem pySorted_pairwise :
    ∀ (l : List (List Char)),
      List.Pairwise (fun a b => nameLe a b = true) (pySorted l) := by
  intro l
  induction l with
  | nil => simp [pySorted]
  | cons x ls ih => exact insertName_pairwise x (pySorted ls) ih

theorem utf8EncodeChar_ne_nil (c : Char) : utf8EncodeChar c ≠ [] := by
  unfold utf8EncodeChar
  dsimp only
  split_ifs <;> simp

theorem utf8Encode_ne_nil (s : List Char) (h : s ≠ []) : utf8Encode s ≠ [] := by
  cases s with
  | nil => exact absurd rfl h
  | cons c s =>
    rw [show utf8Encode (c :: s) = utf8EncodeChar c ++ utf8Encode s from by
      simp [utf8Encode]]
    simp [utf8EncodeChar_ne_nil c]

/-- C8: loading a directory sets the session content to the immediate child
entry names sorted by name (a permutation of the entries, pairwise ordered
under string comparison) and joined with newline, under the fixed default
UTF-8 encoding, and `get_content()` returns that joined text; in particular
entries `{"b.txt", "a.txt"}` produce the content lines
`["a.txt", "b.txt"]`. -/
theorem c8_directory_listing (detect : Detector) (codecs : Codecs)
    (entries : List (List Char))
    (hcodec : ∀ bs, codecs "utf-8" bs = utf8Decode bs)
    (hne : joinNL (pySorted entries) ≠ []) :
    (load detect codecs (FsNode.directory (some entries))
      (mkViewer (FsNode.directory (some entries)))).2 = .ok true ∧
    (load detect codecs (FsNode.directory (some entries))
      (mkViewer (FsNode.directory (some entries)))).1.content =
      some (utf8Encode (joinNL (pySorted entries))) ∧
    (load detect codecs (FsNode.directory (some entries))
      (mkViewer (FsNode.directory (some entries)))).1.encoding =
      some "utf-8" ∧
    (pySorted entries).Perm entries ∧
    List.Pairwise (fun a b => nameLe a b = true) (pySorted entries) ∧
    getContent codecs (load detect codecs (FsNode.directory (some entries))
      (mkViewer (FsNode.directory (some entries)))).1 =
      some (joinNL (pySorted entries)) ∧
    pySplitlines (joinNL (pySorted ["b.txt".toList, "a.txt".toList])) =
      ["a.txt".toList, "b.txt".toList] := by
  have hload : load detect codecs (FsNode.directory (some entries))
      (mkViewer (FsNode.directory (some entries))) =
      ({ fileType := "directory",
         content := some (utf8Encode (joinNL (pySorted entries))),
         encoding := some "utf-8" }, .ok true) := by
    unfold load loadBody
    rw [if_neg (show (mkViewer (FsNode.directory (some entries))).fileType ≠
      "not_exist" by simp [mkViewer, detectFileType])]
    rfl
  refine ⟨by rw [hload], by rw [hload], by rw [hload], pySorted_perm entries,
    pySorted_pairwise entries, ?_, by decide⟩
  rw [hload]
  unfold getContent
  dsimp only
  rw [if_neg (utf8Encode_ne_nil _ hne)]
  rw [if_neg (by decide)]
  rw [hcodec, utf8Decode_encode]

/-- Witness for C8 at the concrete entries `{"b.txt", "a.txt"}`. -/
theorem c8_directory_listing_witness :
    (∀ bs, codecsUtf8 "utf-8" bs = utf8Decode bs) ∧
    joinNL (pySorted ["b.txt".toList, "a.txt".toList]) ≠ [] ∧
    getContent codecsUtf8
      (load detUtf8 codecsUtf8
        (FsNode.directory (some ["b.txt".toList, "a.txt".toList]))
        (mkViewer (FsNode.directory
          (some ["b.txt".toList, "a.txt".toList])))).1 =
      some (joinNL (pySorted ["b.txt".toList, "a.txt".toList])) :=
  ⟨fun _ => rfl, by decide,
    (c8_directory_listing detUtf8 codecsUtf8
      ["b.txt".toList, "a.txt".toList] (fun _ => rfl) (by decide)).2.2.2.2.2.1⟩

/-- C3: for a regular file whose bytes decode under UTF-8 and whose size is
at most the chunking threshold, after a successful `load()` (with the
detector accepting UTF-8), `get_line_count()` equals the number of
line-delimited segments of the decoded text and `get_line(i)` equals the
`i`-th segment for every valid `i`. -/
theorem c3_small_file_lines (detect : Detector) (codecs : Codecs)
    (bytes : List Nat) (text : List Char)
    (hcodec : ∀ bs, codecs "utf-8" bs = utf8Decode bs)
    (hdec : utf8Decode bytes = some text)
    (hsize : bytes.length ≤ 8192)
    (hconf : (detect bytes).conf > mkRat 7 10)
    (henc : (detect bytes).enc = some "utf-8") :
    (load detect codecs (FsNode.regular (some bytes))
      (mkViewer (FsNode.regular (some bytes)))).2 = .ok true ∧
    getLineCount (load detect codecs (FsNode.regular (some bytes))
      (mkViewer (FsNode.regular (some bytes)))).1 =
      (pySplitlines text).length ∧
    ∀ i, getLine (load detect codecs (FsNode.regular (some bytes))
      (mkViewer (FsNode.regular (some bytes)))).1 i =
      (pySplitlines text).get? i := by
  by_cases hbne : bytes = []
  · subst hbne
    rw [utf8Decode_nil] at hdec
    cases hdec
    rw [load_small detect codecs [] (by omega)]
    refine ⟨rfl, rfl, fun i => rfl⟩
  · have henc2 : detectEncoding detect
        { fileType := "file", content := some bytes } = some "utf-8" := by
      unfold detectEncoding
      dsimp only
      rw [if_neg hbne, if_pos hconf, henc]
    rw [load_small detect codecs bytes (by omega), henc2]
    dsimp only
    rw [hcodec bytes, hdec]
    refine ⟨rfl, ?_, ?_⟩
    · show cacheCount (pySplitlines text).enum = (pySplitlines text).length
      apply cacheCount_keys
      rw [List.enum_map_fst, List.range_eq_range']
    · intro i
      show dictGet (pySplitlines text).enum i = (pySplitlines text).get? i
      exact dictGet_enum _ i

/-- Witness for C3 at the concrete file `b"ab\ncd"`. -/
theorem c3_small_file_lines_witness :
    (∀ bs, codecsUtf8 "utf-8" bs = utf8Decode bs) ∧
    utf8Decode [97, 98, 10, 99, 100] = some "ab\ncd".toList ∧
    ([97, 98, 10, 99, 100] : List Nat).length ≤ 8192 ∧
    (detUtf8 [97, 98, 10, 99, 100]).conf > mkRat 7 10 ∧
    (detUtf8 [97, 98, 10, 99, 100]).enc = some "utf-8" ∧
    getLineCount (load detUtf8 codecsUtf8
      (FsNode.regular (some [97, 98, 10, 99, 100]))
      (mkViewer (FsNode.regular (some [97, 98, 10, 99, 100])))).1 =
      (pySplitlines "ab\ncd".toList).length :=
  ⟨fun _ => rfl, by decide, by decide, by decide, rfl,
    (c3_small_file_lines detUtf8 codecsUtf8 [97, 98, 10, 99, 100]
      "ab\ncd".toList (fun _ => rfl) (by decide) (by decide) (by decide)
      rfl).2.1⟩

/-! ## Lemmas: the background write trace -/

theorem take_range' :
    ∀ (k n s : Nat), (List.range' s n).take k = List.range' s (min k n) := by
  intro k
  induction k with
  | zero => simp
  | succ k ih =>
    intro n s
    cases n with
    | zero => simp
    | succ n =>
      rw [List.range'_succ, List.take_succ_cons, ih n (s + 1), Nat.succ_min_succ,
        List.range'_succ]

theorem range'_zero_append (n k : Nat) :
    List.range' 0 n ++ List.range' n k = List.range' 0 (n + k) := by
  have h := List.range'_append 0 n k 1
  simp only [Nat.one_mul, Nat.zero_add] at h
  rw [h, Nat.add_comm]

theorem bgStep_keys (codecs : Codecs) (enc : String) (s : BgState)
    (chunk : List Nat) (h : BgKeys s) : BgKeys (bgStep codecs enc s chunk) := by
  obtain ⟨h1, h2⟩ := h
  unfold bgStep
  rcases codecs enc chunk with _ | text
  · exact ⟨h1, h2⟩
  · dsimp only
    rcases pySplitlines text with _ | ⟨l0, rest⟩
    · exact ⟨h1, h2⟩
    · rcases s.buffer with _ | ⟨b, bs⟩ <;>
      · refine ⟨?_, ?_⟩
        · dsimp only
          rw [List.map_append, h1, List.enumFrom_map_fst, range'_zero_append]
        · dsimp only
          rw [List.length_append, List.enumFrom_length, h2]

theorem bgRun_keys (codecs : Codecs) (enc : String) :
    ∀ (chunks : List (List Nat)) (s : BgState), BgKeys s →
      (bgRun codecs enc s chunks).cache.map Prod.fst =
        List.range' 0 (bgRun codecs enc s chunks).cache.length := by
  intro chunks
  induction chunks with
  | nil =>
    intro s h
    obtain ⟨h1, h2⟩ := h
    unfold bgRun
    by_cases hd : s.dead
    · rw [if_pos hd, h1, h2]
    · rw [if_neg hd]
      rcases hb : s.buffer with _ | ⟨b, bs⟩
    
      · rw [h1, h2]
      · dsimp only
        rw [List.map_append, h1,
          show (List.map Prod.fst [(s.lineNum, b)]) = List.range' s.lineNum 1
            from by simp [List.range'_one],
          range'_zero_append, List.length_append, ← h2]
        simp
  | cons c cs ih =>
    intro s h
    unfold bgRun
    by_cases hd : s.dead
    · rw [if_pos hd]
      exact h.1.trans (by rw [h.2])
    · rw [if_neg hd]
      exact ih (bgStep codecs enc s c) (bgStep_keys codecs enc s c h)

theorem backgroundLoad_keys (detect : Detector) (codecs : Codecs) (cs : Nat)
    (bytes : List Nat) :
    (backgroundLoad detect codecs cs bytes).2.1.map Prod.fst =
      List.range' 0 (backgroundLoad detect codecs cs bytes).2.1.length := by
  unfold backgroundLoad
  dsimp only
  rcases (if (detect (bytes.take cs)).conf > mkRat 7 10
      then (detect (bytes.take cs)).enc else some "utf-8") with _ | e
  · rfl
  · exact bgRun_keys codecs e (chunksOf cs bytes) ⟨[], 0, [], false⟩ ⟨rfl, rfl⟩

/-- C5: over a session, `get_line_count()` is monotonically non-decreasing
across any two sampling points interleaved with the background writes, and
it always returns `(highest written index) + 1`, or `0` on an empty
cache. -/
theorem c5_count_monotone (detect : Detector) (codecs : Codecs) (cs : Nat)
    (bytes : List Nat) (i j : Nat) (hij : i ≤ j) :
    cacheCount ((backgroundLoad detect codecs cs bytes).2.1.take i) ≤
      cacheCount ((backgroundLoad detect codecs cs bytes).2.1.take j) ∧
    ∀ (v : Viewer), getLineCount v =
      if v.cache.isEmpty then 0 else maxKey v.cache + 1 := by
  constructor
  · rw [show (backgroundLoad detect codecs cs bytes).2.1.take i =
      ((backgroundLoad detect codecs cs bytes).2.1.take j).take i from by
        rw [List.take_take, Nat.min_eq_left hij]]
    exact cacheCount_take_le _ i
  · intro v
    rfl

/-- Witness for C5 at a concrete session and sampling points. -/
theorem c5_count_monotone_witness :
    (0 : Nat) ≤ 1 ∧
    cacheCount ((backgroundLoad detUtf8 codecsUtf8 4096
        ("ab\ncd".toList.map Char.toNat)).2.1.take 0) ≤
      cacheCount ((backgroundLoad detUtf8 codecsUtf8 4096
        ("ab\ncd".toList.map Char.toNat)).2.1.take 1) :=
  ⟨by decide,
    (c5_count_monotone detUtf8 codecsUtf8 4096
      ("ab\ncd".toList.map Char.toNat) 0 1 (by decide)).1⟩

/-- C6: the line cache is contiguous and append-only: the background write
trace writes indices `0, 1, 2, …` in order (so no index is ever rewritten),
in every reachable state an entry at index `i` implies entries at all
`j ≤ i`, and the synchronous loader writes `enumerate(lines)`, whose keys
are likewise `0, 1, 2, …`. -/
theorem c6_cache_contiguous (detect : Detector) (codecs : Codecs) (cs : Nat)
    (bytes : List Nat) :
    ((backgroundLoad detect codecs cs bytes).2.1.map Prod.fst =
      List.range' 0 (backgroundLoad detect codecs cs bytes).2.1.length) ∧
    (∀ (k : Nat) (p : Nat × List Char),
      p ∈ (backgroundLoad detect codecs cs bytes).2.1.take k →
      ∀ j ≤ p.1, ∃ q ∈ (backgroundLoad detect codecs cs bytes).2.1.take k,
        q.1 = j) ∧
    (∀ (text : List Char), (pySplitlines text).enum.map Prod.fst =
      List.range' 0 (pySplitlines text).length) := by
  refine ⟨backgroundLoad_keys detect codecs cs bytes, ?_, ?_⟩
  · intro k p hp j hj
    have hkeys := backgroundLoad_keys detect codecs cs bytes
    have hmem : p.1 ∈ (List.range' 0
        (backgroundLoad detect codecs cs bytes).2.1.length).take k := by
      rw [← hkeys, ← List.map_take]
      exact List.mem_map_of_mem Prod.fst hp
    rw [take_range'] at hmem
    have hlt := (List.mem_range'_1.mp hmem).2
    have hjmem : j ∈ ((backgroundLoad detect codecs cs bytes).2.1.take k).map
        Prod.fst := by
      rw [List.map_take, hkeys, take_range']
      exact List.mem_range'_1.mpr ⟨by omega, by omega⟩
    obtain ⟨q, hq, hq1⟩ := List.mem_map.mp hjmem
    exact ⟨q, hq, hq1⟩
  · intro text
    rw [List.enum_map_fst, List.range_eq_range']

/-- Witness for C6 at a concrete background session (chunk size 2 over
`b"ab\ncd\nxy"`), checking contiguity below a concrete reachable entry. -/
theorem c6_cache_contiguous_witness :
    ((1, "cdxy".toList) ∈ (backgroundLoad detUtf8 codecsUtf8 2
      ("ab\ncd\nxy".toList.map Char.toNat)).2.1.take 2) ∧
    (0 : Nat) ≤ 1 ∧
    (∃ q ∈ (backgroundLoad detUtf8 codecsUtf8 2
      ("ab\ncd\nxy".toList.map Char.toNat)).2.1.take 2, q.1 = 0) :=
  ⟨by decide, by decide,
    (c6_cache_contiguous detUtf8 codecsUtf8 2
      ("ab\ncd\nxy".toList.map Char.toNat)).2.1 2 (1, "cdxy".toList)
      (by decide) 0 (by decide)⟩

theorem getLastD_append_right {α : Type} (l2 : List α) (h : l2 ≠ []) :
    ∀ (l1 : List α) (d : α), (l1 ++ l2).getLastD d = l2.getLastD d := by
  intro l1
  induction l1 with
  | nil => intro d; rfl
  | cons a l1 ih =>
    intro d
    rw [List.cons_append, List.getLastD_cons, ih a]
    exact getLastD_irrel l2 h a d

theorem dictGet_append (c1 c2 : Cache) (k : Nat) :
    dictGet (c1 ++ c2) k = (dictGet c2 k).or (dictGet c1 k) := by
  unfold dictGet
  rw [List.reverse_append, List.find?_append]
  rcases h : List.find? (fun q => q.1 == k) c2.reverse with _ | q <;>
    simp [h, Option.or]

/-- C4: the pending-tail stitch publishes a boundary-straddling line whole:
with pending tail `b` and a next chunk decoding to a text whose lines are
`l0 :: rest`, the step appends exactly the lines of `(b ++ l0) :: rest`
except the last (at indices `line_num`, `line_num + 1`, …), keeps the last
as the new pending tail, and — when `rest` is nonempty — the stitched line
`b ++ l0` is readable at index `line_num` as one unbroken cache entry. -/
theorem c4_boundary_stitch (codecs : Codecs) (enc : String) (s : BgState)
    (chunk : List Nat) (b t l0 : List Char) (rest : List (List Char))
    (hkeys : BgKeys s)
    (hbuf : s.buffer = [b])
    (hdec : codecs enc chunk = some t)
    (hsplit : pySplitlines t = l0 :: rest) :
    (bgStep codecs enc s chunk).cache =
      s.cache ++ List.enumFrom s.lineNum (((b ++ l0) :: rest).dropLast) ∧
    (bgStep codecs enc s chunk).buffer = [((b ++ l0) :: rest).getLastD []] ∧
    (rest ≠ [] → dictGet (bgStep codecs enc s chunk).cache s.lineNum =
      some (b ++ l0)) := by
  have hstep : bgStep codecs enc s chunk =
      { cache := s.cache ++ List.enumFrom s.lineNum
          (((b ++ l0) :: rest).dropLast),
        lineNum := s.lineNum + (((b ++ l0) :: rest).dropLast).length,
        buffer := [((b ++ l0) :: rest).getLastD []],
        dead := false } := by
    unfold bgStep
    rw [hdec]
    dsimp only
    rw [hsplit, hbuf]
  refine ⟨by rw [hstep], by rw [hstep], ?_⟩
  intro hrest
  rw [hstep]
  show dictGet (s.cache ++ List.enumFrom s.lineNum
    (((b ++ l0) :: rest).dropLast)) s.lineNum = some (b ++ l0)
  rw [dictGet_append]
  rcases rest with _ | ⟨r1, rs⟩
  · exact absurd rfl hrest
  · rw [show ((b ++ l0) :: r1 :: rs).dropLast =
      (b ++ l0) :: (r1 :: rs).dropLast from rfl]
    rw [dictGet_enumFrom]
    rw [if_pos ⟨le_rfl, by simp only [List.length_cons]; omega⟩]
    simp [Option.or]

/-- Witness for C4: the pending tail `"xy"` and a chunk `b"z\nw"` stitch
into the single published line `"xyz"`. -/
theorem c4_boundary_stitch_witness :
    BgKeys ⟨[], 0, ["xy".toList], false⟩ ∧
    (⟨[], 0, ["xy".toList], false⟩ : BgState).buffer = ["xy".toList] ∧
    codecsUtf8 "utf-8" [122, 10, 119] = some "z\nw".toList ∧
    pySplitlines "z\nw".toList = ["z".toList, "w".toList] ∧
    dictGet (bgStep codecsUtf8 "utf-8" ⟨[], 0, ["xy".toList], false⟩
      [122, 10, 119]).cache 0 = some ("xy".toList ++ "z".toList) :=
  ⟨⟨rfl, rfl⟩, rfl, by decide, by decide,
    (c4_boundary_stitch codecsUtf8 "utf-8" ⟨[], 0, ["xy".toList], false⟩
      [122, 10, 119] "xy".toList "z\nw".toList "z".toList ["w".toList]
      ⟨rfl, rfl⟩ rfl (by decide) (by decide)).2.2 (by decide)⟩

/-! ## Lemmas: the stitching run of the background loader -/

theorem enum_concat_getLastD (l : List (List Char)) (h : l ≠ []) :
    l.dropLast.enum ++ [(l.dropLast.length, l.getLastD [])] = l.enum := by
  conv_rhs => rw [← dropLast_concat_getLastD [] l h]
  rw [List.enum_append]
  rfl

theorem bgStep_stitch (codecs : Codecs)
    (hcodec : ∀ bs, codecs "utf-8" bs = utf8Decode bs)
    (T t : List Char) (c : List Nat)
    (hT : T ≠ []) (hTend : isLineBreak (T.getLastD 'a') = false)
    (ht : utf8Decode c = some t) (htne : t ≠ []) :
    bgStep codecs "utf-8" (stitchState T) c = stitchState (T ++ t) := by
  obtain ⟨l0, rest, hsplit⟩ : ∃ l0 rest, pySplitlines t = l0 :: rest := by
    rcases hq : pySplitlines t with _ | ⟨l0, rest⟩
    · exact absurd hq (pySplitlines_ne_nil t htne)
    · exact ⟨l0, rest, rfl⟩
  have hB := pySplitlines_append T t hT hTend
  rw [hsplit, show mergeFirst ((pySplitlines T).getLastD []) (l0 :: rest) =
    ((pySplitlines T).getLastD [] ++ l0) :: rest from rfl] at hB
  unfold bgStep stitchState
  rw [hcodec, ht]
  dsimp only
  rw [hsplit]
  simp only [BgState.mk.injEq]
  refine ⟨?_, ?_, ?_, trivial⟩
  · rw [hB, List.dropLast_append_of_ne_nil _ (by simp), List.enum_append]
  · rw [hB, List.dropLast_append_of_ne_nil _ (by simp), List.length_append]
  · rw [hB, getLastD_append_right _ (by simp)]

theorem bgRun_stitch (codecs : Codecs)
    (hcodec : ∀ bs, codecs "utf-8" bs = utf8Decode bs) :
    ∀ (chunks : List (List Nat)) (T : List Char), T ≠ [] →
      (chunks ≠ [] → isLineBreak (T.getLastD 'a') = false) →
      (∀ c ∈ chunks, c ≠ []) →
      (∀ c ∈ chunks, ∃ t, utf8Decode c = some t) →
      (∀ c ∈ chunks.dropLast, ∀ t, utf8Decode c = some t →
        isLineBreak (t.getLastD 'a') = false) →
      ∀ U, utf8Decode chunks.flatten = some U →
      (bgRun codecs "utf-8" (stitchState T) chunks).cache =
        (pySplitlines (T ++ U)).enum := by
  intro chunks
  induction chunks with
  | nil =>
    intro T hT _ _ _ _ U hU
    rw [show (List.flatten ([] : List (List Nat))) = [] from rfl,
      utf8Decode_nil] at hU
    cases hU
    rw [List.append_nil]
    unfold bgRun stitchState
    rw [if_neg (by simp)]
    dsimp only
    exact enum_concat_getLastD (pySplitlines T) (pySplitlines_ne_nil T hT)
  | cons c cs ih =>
    intro T hT hTend hcne hdec hnb U hU
    have hc1 : c ≠ [] := hcne c (by simp)
    obtain ⟨t, ht⟩ := hdec c (by simp)
    have htne : t ≠ [] := by
      rcases c with _ | ⟨b0, cb⟩
      · exact absurd rfl hc1
      · exact utf8Decode_cons_ne_nil b0 cb t ht
    rw [show (c :: cs).flatten = c ++ cs.flatten from rfl,
      utf8Decode_append c t ht cs.flatten] at hU
    obtain ⟨U', hU', rfl⟩ := Option.map_eq_some'.mp hU
    rw [show bgRun codecs "utf-8" (stitchState T) (c :: cs) =
        bgRun codecs "utf-8" (bgStep codecs "utf-8" (stitchState T) c) cs from by
      conv_lhs => unfold bgRun
      rw [if_neg (by simp [stitchState])]]
    rw [bgStep_stitch codecs hcodec T t c hT (hTend (by simp)) ht htne]
    have hih := ih (T ++ t) (by simp [hT])
      (fun hcs => by
        rw [getLastD_append_right t htne T 'a']
        refine hnb c ?_ t ht
        rcases cs with _ | ⟨c2, cs2⟩
        · exact absurd rfl hcs
        · rw [List.dropLast_cons₂]
          simp)
      (fun d hd => hcne d (by simp [hd]))
      (fun d hd => hdec d (by simp [hd]))
      (fun d hd t' ht' => by
        refine hnb d ?_ t' ht'
        rcases cs with _ | ⟨c2, cs2⟩
        · simp at hd
        · rw [List.dropLast_cons₂]
          exact List.mem_cons_of_mem c hd)
      U' hU'
    rw [hih, List.append_assoc]

/-! ## Lemmas: the whole background run from the empty initial state -/

theorem codecsUtf8_utf8 (bs : List Nat) : codecsUtf8 "utf-8" bs = utf8Decode bs :=
  if_pos rfl

theorem chunksOf_nil (cs : Nat) : chunksOf cs [] = [] := rfl

theorem getLastD_mem {α : Type} : ∀ (l : List α), l ≠ [] → ∀ d : α, l.getLastD d ∈ l := by
  intro l
  induction l with
  | nil => intro h; exact absurd rfl h
  | cons x t ih =>
    intro _ d
    rcases t with _ | ⟨y, ts⟩
    · simp [List.getLastD]
    · rw [show (x :: y :: ts).getLastD d = (y :: ts).getLastD x from rfl]
      exact List.mem_cons_of_mem x (ih (by simp) x)

theorem pySplitlines_newline_cons (l : List Char) (h : l ≠ []) :
    pySplitlines ('\n' :: l) = [] :: pySplitlines l := by
  rcases l with _ | ⟨c, rest⟩
  · exact absurd rfl h
  · rw [pySplitlines_cons, slGo_cons, if_pos (by decide),
      if_neg (fun hx => absurd hx.1 (by decide)), if_neg (by simp)]
    rfl

theorem pySplitlines_concat_newline (T : List Char) (hne : T ≠ [])
    (hnb : ∀ c ∈ T, isLineBreak c = false) :
    pySplitlines (T ++ ['\n']) = [T] := by
  rw [pySplitlines_append T ['\n'] hne (hnb _ (getLastD_mem T hne 'a')),
    pySplitlines_no_break T hne hnb,
    show pySplitlines ['\n'] = [[]] from by decide]
  simp [mergeFirst]

theorem bgStep_init (codecs : Codecs)
    (hcodec : ∀ bs, codecs "utf-8" bs = utf8Decode bs)
    (t : List Char) (c : List Nat)
    (ht : utf8Decode c = some t) (htne : t ≠ []) :
    bgStep codecs "utf-8" ⟨[], 0, [], false⟩ c = stitchState t := by
  obtain ⟨l0, rest, hsplit⟩ : ∃ l0 rest, pySplitlines t = l0 :: rest := by
    rcases hq : pySplitlines t with _ | ⟨l0, rest⟩
    · exact absurd hq (pySplitlines_ne_nil t htne)
    · exact ⟨l0, rest, rfl⟩
  unfold bgStep stitchState
  rw [hcodec, ht]
  dsimp only
  rw [hsplit]
  simp [List.enum]

theorem bgStep_one_line_nilbuf (codecs : Codecs) (enc : String)
    (cache : Cache) (n : Nat) (c : List Nat) (t u : List Char)
    (hc : codecs enc c = some t) (hsplit : pySplitlines t = [u]) :
    bgStep codecs enc ⟨cache, n, [], false⟩ c = ⟨cache, n, [u], false⟩ := by
  unfold bgStep
  rw [hc]
  dsimp only
  rw [hsplit]
  simp [List.getLastD]

theorem bgStep_one_line_buf (codecs : Codecs) (enc : String)
    (cache : Cache) (n : Nat) (b : List Char) (c : List Nat) (t u : List Char)
    (hc : codecs enc c = some t) (hsplit : pySplitlines t = [u]) :
    bgStep codecs enc ⟨cache, n, [b], false⟩ c = ⟨cache, n, [b ++ u], false⟩ := by
  unfold bgStep
  rw [hc]
  dsimp only
  rw [hsplit]
  simp [List.getLastD]

theorem bgRun_cons_live (codecs : Codecs) (enc : String) (s : BgState)
    (hs : s.dead = false) (c : List Nat) (cs : List (List Nat)) :
    bgRun codecs enc s (c :: cs) = bgRun codecs enc (bgStep codecs enc s c) cs := by
  conv_lhs => unfold bgRun
  rw [if_neg (by simp [hs])]

theorem bgRun_nil_flush (codecs : Codecs) (enc : String) (cache : Cache)
    (n : Nat) (b : List Char) (bs : List (List Char)) :
    bgRun codecs enc ⟨cache, n, b :: bs, false⟩ [] =
      ⟨cache ++ [(n, b)], n, b :: bs, false⟩ := by
  unfold bgRun
  rw [if_neg (by simp)]

/-- C1 (amended): for a regular file above the chunking threshold whose
background load has run to completion under the accepted `'utf-8'`
encoding, `get_line_count()` and `get_line(i)` match the single-pass
decode *provided* every chunk decodes and no non-final chunk's decoded
text ends with a line-break character.  (Without the latter proviso the
claim is false: a chunk ending exactly at a newline makes the completed
last line the pending tail, which is then wrongly prepended to the next
chunk's first line — see the counterexample.) -/
theorem c1_amended (detect : Detector) (codecs : Codecs)
    (hcodec : ∀ bs, codecs "utf-8" bs = utf8Decode bs)
    (bytes : List Nat) (text : List Char)
    (hbig : bytes.length > 4096 * 2)
    (henc : (if (detect (bytes.take 4096)).conf > mkRat 7 10
        then (detect (bytes.take 4096)).enc else some "utf-8") = some "utf-8")
    (hdec : ∀ c ∈ chunksOf 4096 bytes, ∃ t, utf8Decode c = some t)
    (hnb : ∀ c ∈ (chunksOf 4096 bytes).dropLast, ∀ t, utf8Decode c = some t →
      isLineBreak (t.getLastD 'a') = false)
    (htext : utf8Decode bytes = some text) :
    getLineCount (afterBackgroundDone detect codecs bytes) =
      (pySplitlines text).length ∧
    ∀ i, getLine (afterBackgroundDone detect codecs bytes) i =
      (pySplitlines text).get? i := by
  have hbne : bytes ≠ [] := by
    intro h; rw [h] at hbig; simp at hbig
  have hch : chunksOf 4096 bytes =
      bytes.take 4096 :: chunksOf 4096 (bytes.drop 4096) :=
    chunksOf_cons 4096 (by omega) bytes hbne
  obtain ⟨t, ht⟩ := hdec (bytes.take 4096) (by rw [hch]; simp)
  have htklen : (bytes.take 4096).length = 4096 := by
    rw [List.length_take]
    omega
  have htkne : bytes.take 4096 ≠ [] := by
    intro h
    rw [h] at htklen
    simp at htklen
  have htne : t ≠ [] := by
    rcases hc : bytes.take 4096 with _ | ⟨b0, cb⟩
    · exact absurd hc htkne
    · rw [hc] at ht
      exact utf8Decode_cons_ne_nil b0 cb t ht
  have hsplitbytes : bytes.take 4096 ++ bytes.drop 4096 = bytes :=
    List.take_append_drop 4096 bytes
  have htext' : (utf8Decode (bytes.drop 4096)).map (fun y => t ++ y) = some text := by
    rw [← utf8Decode_append (bytes.take 4096) t ht (bytes.drop 4096), hsplitbytes]
    exact htext
  obtain ⟨U, hU, htU⟩ := Option.map_eq_some'.mp htext'
  have hflat : (chunksOf 4096 (bytes.drop 4096)).flatten = bytes.drop 4096 :=
    chunksOf_flatten 4096 (by omega) _
  have hTend : chunksOf 4096 (bytes.drop 4096) ≠ [] →
      isLineBreak (t.getLastD 'a') = false := by
    intro hcs
    refine hnb (bytes.take 4096) ?_ t ht
    rw [hch]
    rcases hc : chunksOf 4096 (bytes.drop 4096) with _ | ⟨c2, cs2⟩
    · exact absurd hc hcs
    · rw [List.dropLast_cons₂]
      simp
  have hcne' : ∀ d ∈ chunksOf 4096 (bytes.drop 4096), d ≠ [] :=
    fun d hd => (chunksOf_mem 4096 (by omega) _ d hd).1
  have hdec' : ∀ d ∈ chunksOf 4096 (bytes.drop 4096), ∃ t', utf8Decode d = some t' :=
    fun d hd => hdec d (by rw [hch]; simp [hd])
  have hnb' : ∀ d ∈ (chunksOf 4096 (bytes.drop 4096)).dropLast,
      ∀ t', utf8Decode d = some t' → isLineBreak (t'.getLastD 'a') = false := by
    intro d hd t' ht'
    refine hnb d ?_ t' ht'
    rw [hch]
    rcases hc : chunksOf 4096 (bytes.drop 4096) with _ | ⟨c2, cs2⟩
    · rw [hc] at hd; simp at hd
    · rw [hc] at hd
      rw [List.dropLast_cons₂]
      exact List.mem_cons_of_mem _ hd
  have hstitch := bgRun_stitch codecs hcodec (chunksOf 4096 (bytes.drop 4096)) t
    htne hTend hcne' hdec' hnb' U (by rw [hflat]; exact hU)
  have hcache : (afterBackgroundDone detect codecs bytes).cache =
      (pySplitlines text).enum := by
    show (backgroundLoad detect codecs 4096 bytes).2.1 = (pySplitlines text).enum
    simp only [backgroundLoad]
    rw [henc]
    dsimp only
    rw [hch, bgRun_cons_live codecs "utf-8" ⟨[], 0, [], false⟩ rfl _ _,
      bgStep_init codecs hcodec t (bytes.take 4096) ht htne, hstitch, htU]
  constructor
  · show cacheCount (afterBackgroundDone detect codecs bytes).cache = _
    rw [hcache]
    exact cacheCount_keys _ _ (by rw [List.enum_map_fst, List.range_eq_range'])
  · intro i
    show dictGet (afterBackgroundDone detect codecs bytes).cache i = _
    rw [hcache, dictGet_enum]

/-- Witness for the amended C1: an 8193-byte file of `'A'`s (above the
threshold, every chunk ASCII-decodable, no chunk text ending in a line
break) for which the completed background load agrees with the one-pass
split. -/
theorem c1_amended_witness :
    (List.replicate 8193 65).length > 4096 * 2 ∧
    (getLineCount (afterBackgroundDone detUtf8 codecsUtf8 (List.replicate 8193 65)) =
        (pySplitlines (List.replicate 8193 'A')).length ∧
      ∀ i, getLine (afterBackgroundDone detUtf8 codecsUtf8 (List.replicate 8193 65)) i =
        (pySplitlines (List.replicate 8193 'A')).get? i) :=
  ⟨by rw [List.length_replicate]; omega,
   c1_amended detUtf8 codecsUtf8 (fun bs => if_pos rfl)
    (List.replicate 8193 65) (List.replicate 8193 'A')
    (by rw [List.length_replicate]; omega)
    (by decide)
    (fun c hc => ⟨c.map Char.ofNat, utf8Decode_ascii c (fun b hb => by
      have hbm := (chunksOf_mem 4096 (by omega) (List.replicate 8193 65) c hc).2.2 b hb
      rw [List.eq_of_mem_replicate hbm]
      omega)⟩)
    (fun c hc t ht => by
      have hcm : c ∈ chunksOf 4096 (List.replicate 8193 65) :=
        List.dropLast_subset _ hc
      have hmem := chunksOf_mem 4096 (by omega) (List.replicate 8193 65) c hcm
      have h65 : ∀ b ∈ c, b < 0x80 := fun b hb => by
        rw [List.eq_of_mem_replicate (hmem.2.2 b hb)]
        omega
      rw [utf8Decode_ascii c h65] at ht
      cases ht
      have htne : c.map Char.ofNat ≠ [] := by
        simp [hmem.1]
      obtain ⟨b, hb, hbe⟩ := List.mem_map.mp (getLastD_mem (c.map Char.ofNat) htne 'a')
      rw [← hbe, List.eq_of_mem_replicate (hmem.2.2 b hb)]
      decide)
    (by
      rw [utf8Decode_ascii (List.replicate 8193 65) (fun b hb => by
          rw [List.eq_of_mem_replicate hb]; omega),
        List.map_replicate, show Char.ofNat 65 = 'A' from by decide])⟩

/-! ## The C1 counterexample computation -/

theorem c1Bytes_take : c1Bytes.take 4096 = List.replicate 4095 65 ++ [10] := by
  show (List.replicate 4095 65 ++ 10 :: List.replicate 4097 66).take 4096 = _
  rw [List.take_append_eq_append_take, List.take_replicate, List.length_replicate,
    show min 4096 4095 = 4095 from by norm_num,
    show 4096 - 4095 = 1 from by norm_num,
    show (10 :: List.replicate 4097 66).take 1 = [10] from rfl]

theorem c1Bytes_drop : c1Bytes.drop 4096 = List.replicate 4097 66 := by
  show (List.replicate 4095 65 ++ 10 :: List.replicate 4097 66).drop 4096 = _
  rw [List.drop_append_eq_append_drop, List.drop_replicate, List.length_replicate,
    show (4095:Nat) - 4096 = 0 from by norm_num,
    show 4096 - 4095 = 1 from by norm_num,
    show (10 :: List.replicate 4097 66).drop 1 = List.replicate 4097 66 from rfl]
  rfl

theorem c1_chunks : chunksOf 4096 c1Bytes =
    [List.replicate 4095 65 ++ [10], List.replicate 4096 66, [66]] := by
  have h0 : c1Bytes ≠ [] := by
    refine List.ne_nil_of_length_pos ?_
    show 0 < (List.replicate 4095 65 ++ 10 :: List.replicate 4097 66).length
    rw [List.length_append, List.length_replicate]
    omega
  rw [chunksOf_cons 4096 (by omega) c1Bytes h0, c1Bytes_take, c1Bytes_drop]
  rw [chunksOf_cons 4096 (by omega) (List.replicate 4097 66)
      (List.ne_nil_of_length_pos (by rw [List.length_replicate]; omega)),
    List.take_replicate, List.drop_replicate,
    show min 4096 4097 = 4096 from by norm_num,
    show (4097:Nat) - 4096 = 1 from by norm_num,
    show List.replicate 1 (66:Nat) = [66] from rfl]
  rw [chunksOf_cons 4096 (by omega) [66] (by intro h; cases h),
    show ([66] : List Nat).take 4096 = [66] from rfl,
    show ([66] : List Nat).drop 4096 = [] from rfl,
    chunksOf_nil]

theorem c1_decode1 : utf8Decode (List.replicate 4095 65 ++ [10]) =
    some (List.replicate 4095 'A' ++ ['\n']) := by
  rw [utf8Decode_ascii _ (fun b hb => by
      rcases List.mem_append.mp hb with h | h
      · rw [List.eq_of_mem_replicate h]; omega
      · simp at h; omega),
    List.map_append, List.map_replicate,
    show Char.ofNat 65 = 'A' from by decide,
    show List.map Char.ofNat [10] = ['\n'] from by decide]

theorem c1_decode2 : utf8Decode (List.replicate 4096 66) =
    some (List.replicate 4096 'B') := by
  rw [utf8Decode_ascii _ (fun b hb => by rw [List.eq_of_mem_replicate hb]; omega),
    List.map_replicate, show Char.ofNat 66 = 'B' from by decide]

theorem c1_decode3 : utf8Decode [66] = some ['B'] := by decide

theorem c1_split1 : pySplitlines (List.replicate 4095 'A' ++ ['\n']) =
    [List.replicate 4095 'A'] :=
  pySplitlines_concat_newline _
    (List.ne_nil_of_length_pos (by rw [List.length_replicate]; omega)) (fun c hc => by
    rw [List.eq_of_mem_replicate hc]; decide)

theorem c1_split2 : pySplitlines (List.replicate 4096 'B') =
    [List.replicate 4096 'B'] :=
  pySplitlines_no_break _
    (List.ne_nil_of_length_pos (by rw [List.length_replicate]; omega)) (fun c hc => by
    rw [List.eq_of_mem_replicate hc]; decide)

theorem c1_split3 : pySplitlines ['B'] = [['B']] := by decide

theorem c1_onePass : onePassLines c1Bytes =
    some [List.replicate 4095 'A', List.replicate 4097 'B'] := by
  have hdecAll : utf8Decode c1Bytes = some c1Text := by
    show utf8Decode (List.replicate 4095 65 ++ 10 :: List.replicate 4097 66) =
      some (List.replicate 4095 'A' ++ '\n' :: List.replicate 4097 'B')
    rw [utf8Decode_ascii _ (fun b hb => by
        rcases List.mem_append.mp hb with h | h
        · rw [List.eq_of_mem_replicate h]; omega
        · rcases List.mem_cons.mp h with h | h
          · omega
          · rw [List.eq_of_mem_replicate h]; omega),
      List.map_append, List.map_cons, List.map_replicate, List.map_replicate,
      show Char.ofNat 65 = 'A' from by decide,
      show Char.ofNat 10 = '\n' from by decide,
      show Char.ofNat 66 = 'B' from by decide]
  have hsplit : pySplitlines c1Text =
      [List.replicate 4095 'A', List.replicate 4097 'B'] := by
    show pySplitlines (List.replicate 4095 'A' ++ '\n' :: List.replicate 4097 'B') = _
    rw [pySplitlines_append (List.replicate 4095 'A') ('\n' :: List.replicate 4097 'B')
        (List.ne_nil_of_length_pos (by rw [List.length_replicate]; omega))
        (by
          obtain hm := getLastD_mem (List.replicate 4095 'A')
            (List.ne_nil_of_length_pos (by rw [List.length_replicate]; omega)) 'a'
          rw [List.eq_of_mem_replicate hm]
          decide),
      pySplitlines_no_break (List.replicate 4095 'A')
        (List.ne_nil_of_length_pos (by rw [List.length_replicate]; omega)) (fun c hc => by
        rw [List.eq_of_mem_replicate hc]; decide),
      pySplitlines_newline_cons (List.replicate 4097 'B')
        (List.ne_nil_of_length_pos (by rw [List.length_replicate]; omega)),
      pySplitlines_no_break (List.replicate 4097 'B')
        (List.ne_nil_of_length_pos (by rw [List.length_replicate]; omega)) (fun c hc => by
        rw [List.eq_of_mem_replicate hc]; decide)]
    show (List.replicate 4095 'A' ++ []) :: [List.replicate 4097 'B'] = _
    rw [List.append_nil]
  unfold onePassLines
  rw [hdecAll, Option.map_some', hsplit]

theorem c1_run : bgRun codecsUtf8 "utf-8" ⟨[], 0, [], false⟩ (chunksOf 4096 c1Bytes) =
    ⟨[(0, (List.replicate 4095 'A' ++ List.replicate 4096 'B') ++ ['B'])], 0,
     [(List.replicate 4095 'A' ++ List.replicate 4096 'B') ++ ['B']], false⟩ := by
  rw [c1_chunks]
  rw [bgRun_cons_live codecsUtf8 "utf-8" ⟨[], 0, [], false⟩ rfl
      (List.replicate 4095 65 ++ [10]) [List.replicate 4096 66, [66]],
    bgStep_one_line_nilbuf codecsUtf8 "utf-8" [] 0 (List.replicate 4095 65 ++ [10])
      (List.replicate 4095 'A' ++ ['\n']) (List.replicate 4095 'A')
      (by rw [codecsUtf8_utf8]; exact c1_decode1) c1_split1]
  rw [bgRun_cons_live codecsUtf8 "utf-8" ⟨[], 0, [List.replicate 4095 'A'], false⟩ rfl
      (List.replicate 4096 66) [[66]],
    bgStep_one_line_buf codecsUtf8 "utf-8" [] 0 (List.replicate 4095 'A')
      (List.replicate 4096 66) (List.replicate 4096 'B') (List.replicate 4096 'B')
      (by rw [codecsUtf8_utf8]; exact c1_decode2) c1_split2]
  rw [bgRun_cons_live codecsUtf8 "utf-8"
      ⟨[], 0, [List.replicate 4095 'A' ++ List.replicate 4096 'B'], false⟩ rfl [66] [],
    bgStep_one_line_buf codecsUtf8 "utf-8" [] 0
      (List.replicate 4095 'A' ++ List.replicate 4096 'B') [66] ['B'] ['B']
      (by rw [codecsUtf8_utf8]; exact c1_decode3) c1_split3]
  rw [bgRun_nil_flush]
  rfl

/-- C1 counterexample: `c1Bytes` (8193 bytes, above the threshold) has its
first 4096-byte chunk end exactly at the newline, so the chunk's complete
last line becomes the pending tail and is wrongly glued onto the next
chunk's first line.  Every chunk decodes (nothing is skipped), the
one-pass decode has two lines, yet after the background run
`get_line_count()` is `1` and `get_line(1)` is `None`. -/
theorem c1_counterexample :
    c1Bytes.length > 4096 * 2 ∧
    (∀ c ∈ chunksOf 4096 c1Bytes, ∃ t, codecsUtf8 "utf-8" c = some t) ∧
    (backgroundLoad detUtf8 codecsUtf8 4096 c1Bytes).2.2 = true ∧
    onePassLines c1Bytes = some [List.replicate 4095 'A', List.replicate 4097 'B'] ∧
    getLineCount (afterBackgroundDone detUtf8 codecsUtf8 c1Bytes) = 1 ∧
    getLine (afterBackgroundDone detUtf8 codecsUtf8 c1Bytes) 1 = none := by
  have hlen : c1Bytes.length = 8193 := by
    show (List.replicate 4095 65 ++ 10 :: List.replicate 4097 66).length = 8193
    rw [List.length_append, List.length_replicate, List.length_cons,
      List.length_replicate]
  have hbg : backgroundLoad detUtf8 codecsUtf8 4096 c1Bytes =
      (some "utf-8",
       [(0, (List.replicate 4095 'A' ++ List.replicate 4096 'B') ++ ['B'])],
       true) := by
    simp only [backgroundLoad]
    rw [show (if (detUtf8 (c1Bytes.take 4096)).conf > mkRat 7 10
        then (detUtf8 (c1Bytes.take 4096)).enc else some "utf-8") = some "utf-8" from
      if_pos (by decide)]
    dsimp only
    rw [c1_run]
    rfl
  have hcache : (afterBackgroundDone detUtf8 codecsUtf8 c1Bytes).cache =
      [(0, (List.replicate 4095 'A' ++ List.replicate 4096 'B') ++ ['B'])] := by
    simp only [afterBackgroundDone]
    rw [hbg]
  refine ⟨by omega, ?_, by rw [hbg], c1_onePass, ?_, ?_⟩
  · intro c hc
    rw [c1_chunks] at hc
    rw [codecsUtf8_utf8]
    rcases List.mem_cons.mp hc with h | hc2
    · exact ⟨_, by rw [h]; exact c1_decode1⟩
    rcases List.mem_cons.mp hc2 with h | hc3
    · exact ⟨_, by rw [h]; exact c1_decode2⟩
    rcases List.mem_cons.mp hc3 with h | hc4
    · exact ⟨_, by rw [h]; exact c1_decode3⟩
    · simp at hc4
  · show cacheCount (afterBackgroundDone detUtf8 codecsUtf8 c1Bytes).cache = 1
    rw [hcache]
    rfl
  · show dictGet (afterBackgroundDone detUtf8 codecsUtf8 c1Bytes).cache 1 = none
    rw [hcache]
    rfl

end MiniYazi
